import Mathlib

/-!
# A verification development for `wiki.go`

The program is a small wiki server: a path validator (`validPath`, `getTitle`,
`makeHandler`), a link transform (`toHTML`), a page store (`save`, `loadPage`)
and three handlers (`viewHandler`, `editHandler`, `saveHandler`).

Modelling decisions.

* A Go string is modelled as a Lean `String`, i.e. a sequence of code points, and
  positions count code points.  Every character the program, the escaper or the two
  patterns treat specially is ASCII, and an ASCII byte never occurs inside the
  encoding of another code point, so a match, a slice or a replacement in one view
  is the same text in the other.
* `regexp` is modelled by a backtracking matcher over a pattern tree.  The package
  documents its result as the leftmost match, and among those the one a
  backtracking search finds first; `run` lists the ways a pattern can match at a
  position in exactly that order, and `doExecute` takes the first one at the
  leftmost position that has any.
* A run-time panic (a slice or an index out of range) is modelled explicitly:
  `slice` and indexing return `Option`, and a handler that panics logs
  `Event.panic`.
* The file system, the response writer and the template set are the `World`:
  the files by name, the error a write to a file name reports, the error executing
  a template reports, and the log of everything the program did.
-/

namespace Wiki

/-! ## Package `regexp` -/

/-- Pattern trees, for the constructs the two patterns of the program use. -/
inductive Regex where
  | lit (c : Char)
  | cls (ranges : List (Char × Char))
  | cat (r s : Regex)
  | alt (r s : Regex)
  | plus (r : Regex)
  | cap (n : Nat) (r : Regex)
  | empty
  | beginText
  | endText

/-- One state of the backtracking search: the position reached, the text still
ahead of it, and the capture groups closed so far (group, start, end), the most
recent first. -/
structure Thread where
  pos : Nat
  rest : List Char
  caps : List (Nat × Nat × Nat)

/-- Membership of a character in a class given by inclusive ranges. -/
def inClass (ranges : List (Char × Char)) (c : Char) : Bool :=
  ranges.any fun r => decide (r.1.toNat ≤ c.toNat) && decide (c.toNat ≤ r.2.toNat)

/-- Greedy repetition `r+` of a matcher `f`: after each iteration, further
iterations are preferred to stopping.  An iteration that does not advance is not
repeated. -/
def plusLoop (f : Thread → List Thread) : Nat → Thread → List Thread
  | 0, _ => []
  | fuel + 1, t =>
    (f t).flatMap fun t1 => (if t.pos < t1.pos then plusLoop f fuel t1 else []) ++ [t1]

/-- All the ways pattern `re` matches starting at thread `t`, in the order a
backtracking search finds them. -/
def run : Regex → Thread → List Thread
  | .lit c, t =>
    match t.rest with
    | d :: rest => if d = c then [⟨t.pos + 1, rest, t.caps⟩] else []
    | [] => []
  | .cls ranges, t =>
    match t.rest with
    | d :: rest => if inClass ranges d then [⟨t.pos + 1, rest, t.caps⟩] else []
    | [] => []
  | .cat r s, t => (run r t).flatMap (run s)
  | .alt r s, t => run r t ++ run s t
  | .plus r, t => plusLoop (run r) (t.rest.length + 1) t
  | .cap n r, t => (run r t).map fun t1 => ⟨t1.pos, t1.rest, (n, t.pos, t1.pos) :: t1.caps⟩
  | .empty, t => [t]
  | .beginText, t => if t.pos = 0 then [t] else []
  | .endText, t => if t.rest = [] then [t] else []

/-- Number of capture groups of a pattern (`re.numSubexp`). -/
def numSubexp : Regex → Nat
  | .cat r s => max (numSubexp r) (numSubexp s)
  | .alt r s => max (numSubexp r) (numSubexp s)
  | .plus r => numSubexp r
  | .cap n r => max n (numSubexp r)
  | _ => 0

/-- A match: `a[0]`, `a[1]` and the capture groups. -/
structure Match where
  start : Nat
  stop : Nat
  caps : List (Nat × Nat × Nat)

/-- Leftmost search from position `pos`, with `rest` the text from `pos` on. -/
def search (re : Regex) : Nat → List Char → Option Match
  | pos, [] => (run re ⟨pos, [], []⟩).head?.map fun t => ⟨pos, t.pos, t.caps⟩
  | pos, c :: rest =>
    match (run re ⟨pos, c :: rest, []⟩).head? with
    | some t => some ⟨pos, t.pos, t.caps⟩
    | none => search re (pos + 1) rest

/-- Model of `re.doExecute(nil, nil, src, pos, ...)`: the leftmost-first match
starting at or after `pos`. -/
def doExecute (re : Regex) (src : List Char) (pos : Nat) : Option Match :=
  if pos ≤ src.length then search re pos (src.drop pos) else none

/-- The substring `s[lo:hi]` for indices known to be in range. -/
def substr (s : List Char) (lo hi : Nat) : List Char :=
  (s.take hi).drop lo

/-- Model of `re.FindStringSubmatch(s)`: `none` is the nil slice; otherwise the
whole match followed by the text of each group (empty for a group that did not
take part). -/
def FindStringSubmatch (re : Regex) (s : String) : Option (List String) :=
  match doExecute re s.data 0 with
  | none => none
  | some a =>
    some ((List.range (1 + numSubexp re)).map fun i =>
      if i = 0 then String.mk (substr s.data a.start a.stop)
      else match a.caps.lookup i with
        | some (lo, hi) => String.mk (substr s.data lo hi)
        | none => "")

/-- State of the loop of `re.replaceAll`, with the arguments the replacement
callback has received so far. -/
structure ReplState where
  lastMatchEnd : Nat
  searchPos : Nat
  buf : List Char
  calls : List (List Char)

/-- Result of `ReplaceAllStringFunc`: the arguments the callback received, in
order, and the text produced (`none` when the callback panicked or the loop ran
out of turns). -/
structure ReplResult where
  calls : List (List Char)
  out : Option (List Char)

/-- Model of the loop of `re.replaceAll` as `ReplaceAllStringFunc` uses it: the
callback `repl` is applied to `src[a[0]:a[1]]` and its result appended. -/
def replaceAll (re : Regex) (src : List Char) (repl : List Char → Option (List Char)) :
    Nat → ReplState → ReplResult
  | 0, st => ⟨st.calls, none⟩
  | fuel + 1, st =>
    if st.searchPos ≤ src.length then
      match doExecute re src st.searchPos with
      | none => ⟨st.calls, some (st.buf ++ src.drop st.lastMatchEnd)⟩
      | some a =>
        let buf := st.buf ++ substr src st.lastMatchEnd a.start
        let width := if st.searchPos < src.length then 1 else 0
        let searchPos :=
          if st.searchPos + width > a.stop then st.searchPos + width
          else if st.searchPos + 1 > a.stop then st.searchPos + 1
          else a.stop
        if a.stop > st.lastMatchEnd ∨ a.start = 0 then
          let s := substr src a.start a.stop
          match repl s with
          | none => ⟨st.calls ++ [s], none⟩
          | some r => replaceAll re src repl fuel ⟨a.stop, searchPos, buf ++ r, st.calls ++ [s]⟩
        else replaceAll re src repl fuel ⟨a.stop, searchPos, buf, st.calls⟩
    else ⟨st.calls, some (st.buf ++ src.drop st.lastMatchEnd)⟩

/-- Trace of `re.ReplaceAllStringFunc(src, repl)`.  Every turn of the loop moves
`searchPos` forward, so `len(src) + 2` turns are enough. -/
def replaceAllTrace (re : Regex) (src : String) (repl : String → Option String) : ReplResult :=
  replaceAll re src.data (fun s => (repl (String.mk s)).map String.data)
    (src.length + 2) ⟨0, 0, [], []⟩

/-- Model of `re.ReplaceAllStringFunc(src, repl)` for a callback that may panic. -/
def ReplaceAllStringFunc (re : Regex) (src : String) (repl : String → Option String) :
    Option String :=
  (replaceAllTrace re src repl).out.map String.mk

/-! ## Package `html/template` -/

/-- The replacement `HTMLEscape` writes for one character: `\uFFFD` for NUL,
`&#34;` for `"`, `&#39;` for `'`, `&amp;`, `&lt;`, `&gt;`, and the character itself
otherwise. -/
def escapeChar (c : Char) : List Char :=
  if c = '\x00' then ['\uFFFD']
  else if c = '\x22' then "&#34;".data
  else if c = '\x27' then "&#39;".data
  else if c = '&' then "&amp;".data
  else if c = '<' then "&lt;".data
  else if c = '>' then "&gt;".data
  else [c]

/-- Model of `template.HTMLEscapeString`. -/
def HTMLEscapeString (s : String) : String :=
  String.mk (s.data.flatMap escapeChar)

/-! ## The program: patterns and the link transform -/

/-- The literal `s` as a pattern. -/
def lits : List Char → Regex
  | [] => .empty
  | c :: cs => .cat (.lit c) (lits cs)

/-- The class `[a-zA-Z0-9]`. -/
def alnum : List (Char × Char) := [('a', 'z'), ('A', 'Z'), ('0', '9')]

/-- Pattern `^/(edit|save|view)/([a-zA-Z0-9]+)$`. -/
def validPath : Regex :=
  .cat .beginText (.cat (.lit '/')
    (.cat (.cap 1 (.alt (lits "edit".data) (.alt (lits "save".data) (lits "view".data))))
      (.cat (.lit '/') (.cat (.cap 2 (.plus (.cls alnum))) .endText))))

/-- Pattern `\[[a-zA-Z0-9]+\]`. -/
def linkRegexp : Regex :=
  .cat (.lit '[') (.cat (.plus (.cls alnum)) (.lit ']'))

/-- The slice expression `s[lo:hi]`; `none` is the run-time panic for indices out
of range. -/
def slice (s : String) (lo hi : Int) : Option String :=
  if 0 ≤ lo ∧ lo ≤ hi ∧ hi ≤ s.length then some (String.mk (substr s.data lo.toNat hi.toNat))
  else none

/-- The callback of `toHTML`. -/
def linkRepl (s : String) : Option String :=
  match slice s 1 ((s.length : Int) - 1) with
  | none => none
  | some term => some ("<a href=\"/view/" ++ term ++ "\">" ++ term ++ "</a>")

/-- Model of `toHTML`; `none` stands for a call that does not return a result (a
panic in the callback). -/
def toHTML (body : String) : Option String :=
  let html := HTMLEscapeString body
  ReplaceAllStringFunc linkRegexp html linkRepl

/-! ## The program: pages, the page store and the handlers -/

/-- The type `Page`. -/
structure Page where
  Title : String
  Body : String

/-- What the program does to the outside: file accesses, writes to the
`http.ResponseWriter`, template executions, and a run-time panic. -/
inductive Event where
  | readFile (name : String)
  | writeFile (name : String) (data : String) (perm : Nat)
  | notFound
  | redirect (url : String) (code : Nat)
  | error (msg : String) (code : Nat)
  | executeTemplate (name : String) (data : Page)
  | panic

/-- The environment of a request: the files by name, the error a write to a name
reports (if any), the error executing a template reports (if any), and the log of
events so far, the oldest first. -/
structure World where
  files : List (String × String)
  writeErr : String → Option String
  templateErr : String → Page → Option String
  log : List Event

/-- Append an event to the log. -/
def World.emit (w : World) (e : Event) : World :=
  { w with log := w.log ++ [e] }

/-- The part of `*http.Request` the program reads: `r.URL.Path` and the parsed
form. -/
structure Request where
  Path : String
  Form : List (String × String)

/-- Model of `r.FormValue(key)`: the first value for `key`, or the empty string. -/
def Request.FormValue (r : Request) (key : String) : String :=
  (r.Form.lookup key).getD ""

/-- `http.StatusFound`. -/
def StatusFound : Nat := 302

/-- `http.StatusInternalServerError`. -/
def StatusInternalServerError : Nat := 500

/-- Model of `ioutil.ReadFile`: the content of the file, or an error when there is
no such file. -/
def ReadFile (w : World) (filename : String) : World × Except String String :=
  let w := w.emit (.readFile filename)
  match w.files.lookup filename with
  | some data => (w, .ok data)
  | none => (w, .error ("open " ++ filename ++ ": no such file or directory"))

/-- Model of `ioutil.WriteFile`: on success the file holds exactly `data`,
whatever it held before; a write that fails is one whose file could not be opened,
and leaves the files as they were. -/
def WriteFile (w : World) (filename : String) (data : String) (perm : Nat) :
    World × Option String :=
  let w := w.emit (.writeFile filename data perm)
  match w.writeErr filename with
  | some err => (w, some err)
  | none => ({ w with files := (filename, data) :: w.files.filter fun f => f.1 != filename }, none)

/-- Model of `getTitle`: the world after the call, the title and the error. -/
def getTitle (w : World) (r : Request) : World × String × Option String :=
  match FindStringSubmatch validPath r.Path with
  | none => (w.emit .notFound, "", some "Invalid Page Title")
  | some m =>
    match m[2]? with
    | none => (w.emit .panic, "", none)
    | some title => (w, title, none)

/-- Model of `(*Page).save`. -/
def Page.save (p : Page) (w : World) : World × Option String :=
  let filename := "data/" ++ p.Title ++ ".txt"
  WriteFile w filename p.Body 0o600

/-- Model of `loadPage`. -/
def loadPage (w : World) (title : String) : World × Except String Page :=
  let filename := "data/" ++ title ++ ".txt"
  match ReadFile w filename with
  | (w, .error err) => (w, .error err)
  | (w, .ok body) => (w, .ok { Title := title, Body := body })

/-- Model of `render`. -/
def render (w : World) (tmpl : String) (p : Page) : World :=
  let w := w.emit (.executeTemplate (tmpl ++ ".html") p)
  match w.templateErr (tmpl ++ ".html") p with
  | some err => w.emit (.error err StatusInternalServerError)
  | none => w

/-- Model of `indexHandler`. -/
def indexHandler (w : World) (_r : Request) : World :=
  w.emit (.redirect "/view/FrontPage" StatusFound)

/-- Model of `viewHandler`. -/
def viewHandler (w : World) (_r : Request) (title : String) : World :=
  match loadPage w title with
  | (w, .error _) => w.emit (.redirect ("/edit/" ++ title) StatusFound)
  | (w, .ok p) =>
    match toHTML p.Body with
    | none => w.emit .panic
    | some body => render w "view" { p with Body := body }

/-- Model of `editHandler`. -/
def editHandler (w : World) (_r : Request) (title : String) : World :=
  match loadPage w title with
  | (w, .error _) => render w "edit" { Title := title, Body := "" }
  | (w, .ok p) => render w "edit" p

/-- Model of `saveHandler`. -/
def saveHandler (w : World) (r : Request) (title : String) : World :=
  let body := r.FormValue "body"
  let p : Page := { Title := title, Body := body }
  match p.save w with
  | (w, some err) => w.emit (.error err StatusInternalServerError)
  | (w, none) => w.emit (.redirect ("/view/" ++ title) StatusFound)

/-- Model of `makeHandler`. -/
def makeHandler (fn : World → Request → String → World) : World → Request → World :=
  fun w r =>
    match FindStringSubmatch validPath r.Path with
    | none => w.emit .notFound
    | some m =>
      match m[2]? with
      | none => w.emit .panic
      | some title => fn w r title

/-! ## Specification devices

The definitions below are not part of the program; they are used to state and
prove what the program does. -/

/-- A character of the class `[a-zA-Z0-9]`. -/
def isAlnum (c : Char) : Bool := inClass alnum c

/-- The threads of a greedy repetition of a one-character class `P`, the longest
first. -/
def greedy (P : Char → Bool) (pos : Nat) (caps : List (Nat × Nat × Nat)) :
    List Char → List Thread
  | [] => []
  | d :: s => if P d then greedy P (pos + 1) caps s ++ [⟨pos + 1, s, caps⟩] else []

/-- A link token `[term]` at the head of a text: the term and the text after the
token. -/
def tokenAt : List Char → Option (List Char × List Char)
  | [] => none
  | c :: r =>
    if c = '[' ∧ r.takeWhile isAlnum ≠ [] ∧ (r.dropWhile isAlnum).head? = some ']' then
      some (r.takeWhile isAlnum, (r.dropWhile isAlnum).tail)
    else none

/-- Whether a link token starts anywhere in a text. -/
def hasToken : List Char → Bool
  | [] => false
  | c :: r => (tokenAt (c :: r)).isSome || hasToken r

/-- Whether `HTMLEscape` leaves a character alone. -/
def isPlain (c : Char) : Bool :=
  c != '\x00' && c != '\x22' && c != '\x27' && c != '&' && c != '<' && c != '>'

/-- Number of places where `pat` occurs in a text. -/
def occurrences (pat : List Char) : List Char → Nat
  | [] => 0
  | c :: r => (if pat.isPrefixOf (c :: r) then 1 else 0) + occurrences pat r

/-- The three operations of a valid path. -/
def ops : List String := ["edit", "save", "view"]

/-- A world with no file, in which every write and every template succeeds. -/
def emptyWorld : World := ⟨[], fun _ => none, fun _ _ => none, []⟩

/-- The events `render` logs after the template execution: the server error, when
the template fails. -/
def renderErrors (w : World) (tmpl : String) (p : Page) : List Event :=
  match w.templateErr (tmpl ++ ".html") p with
  | some err => [.error err StatusInternalServerError]
  | none => []

/-- An event that agrees with the title `t`: a file access is to `data/t.txt`, and
a page rendered has title `t`. -/
def Event.agrees (t : String) : Event → Prop
  | .readFile name => name = "data/" ++ t ++ ".txt"
  | .writeFile name _ _ => name = "data/" ++ t ++ ".txt"
  | .executeTemplate _ p => p.Title = t
  | _ => True

/-- A piece of a text: a single character, or a link token with its term. -/
inductive Seg where
  | text (c : Char)
  | link (term : List Char)

/-- The anchor `toHTML` writes for a term. -/
def anchor (term : List Char) : List Char :=
  "<a href=\"/view/".data ++ term ++ "\">".data ++ term ++ "</a>".data

/-- The text a piece stands for in the input. -/
def Seg.src : Seg → List Char
  | .text c => [c]
  | .link term => '[' :: (term ++ [']'])

/-- The text written for a piece. -/
def Seg.out : Seg → List Char
  | .text c => [c]
  | .link term => anchor term

/-- The argument the callback receives for a piece, if any. -/
def Seg.call : Seg → List (List Char)
  | .text _ => []
  | .link term => ['[' :: (term ++ [']'])]

/-- Division of a text into pieces, left to right: a link token where one starts,
a character elsewhere.  The first argument counts the characters still to skip
inside the token just found. -/
def segmentsFrom : Nat → List Char → List Seg
  | _, [] => []
  | k + 1, _ :: r => segmentsFrom k r
  | 0, c :: r =>
    match tokenAt (c :: r) with
    | some (t, _) => .link t :: segmentsFrom (t.length + 1) r
    | none => .text c :: segmentsFrom 0 r

/-- Division of a text into characters and link tokens. -/
def segments (s : List Char) : List Seg := segmentsFrom 0 s

/-- The callback of `toHTML` on lists of characters. -/
def linkReplData (s : List Char) : Option (List Char) :=
  (linkRepl (String.mk s)).map String.data

/-! ## The matcher on the two patterns -/

theorem run_lits (l : List Char) (p : Nat) (s : List Char) (c : List (Nat × Nat × Nat)) :
    run (lits l) ⟨p, l ++ s, c⟩ = [⟨p + l.length, s, c⟩] := by
  induction l generalizing p with
  | nil => simp [lits, run]
  | cons a l ih =>
    simp only [lits, run, List.cons_append, if_true, List.flatMap_cons, List.flatMap_nil,
      List.append_nil, ih, List.length_cons]
    congr 2
    omega

theorem mem_run_lits {l : List Char} {t u : Thread} (h : u ∈ run (lits l) t) :
    t.rest = l ++ u.rest ∧ u.pos = t.pos + l.length ∧ u.caps = t.caps := by
  induction l generalizing t with
  | nil => simp [lits, run] at h; subst h; simp
  | cons a l ih =>
    simp only [lits, run, List.mem_flatMap] at h
    obtain ⟨v, hv, hu⟩ := h
    obtain ⟨p, s, c⟩ := t
    cases s with
    | nil => simp at hv
    | cons d s =>
      by_cases hd : d = a
      · simp [hd] at hv
        subst hv
        obtain ⟨h1, h2, h3⟩ := ih hu
        simp at h1 h2 h3
        simp [hd, h1, h2, h3]
        omega
      · simp [hd] at hv

theorem run_cat (r s : Regex) (t : Thread) : run (.cat r s) t = (run r t).flatMap (run s) := rfl

theorem run_cap (n : Nat) (r : Regex) (t : Thread) :
    run (.cap n r) t =
      (run r t).map fun t1 => ⟨t1.pos, t1.rest, (n, t.pos, t1.pos) :: t1.caps⟩ := rfl

theorem run_beginText (t : Thread) : run .beginText t = if t.pos = 0 then [t] else [] := rfl

theorem run_endText (t : Thread) : run .endText t = if t.rest = [] then [t] else [] := rfl

theorem run_cls_cons (rs : List (Char × Char)) (p : Nat) (d : Char) (s : List Char)
    (c : List (Nat × Nat × Nat)) :
    run (.cls rs) ⟨p, d :: s, c⟩ = if inClass rs d then [⟨p + 1, s, c⟩] else [] := rfl

theorem run_cls_nil (rs : List (Char × Char)) (p : Nat) (c : List (Nat × Nat × Nat)) :
    run (.cls rs) ⟨p, [], c⟩ = [] := rfl

theorem plusLoop_cls (rs : List (Char × Char)) (s : List Char) :
    ∀ (fuel p : Nat) (c : List (Nat × Nat × Nat)), s.length < fuel →
      plusLoop (run (.cls rs)) fuel ⟨p, s, c⟩ = greedy (inClass rs) p c s := by
  induction s with
  | nil =>
    intro fuel p c h
    cases fuel with
    | zero => simp at h
    | succ n => simp [plusLoop, run_cls_nil, greedy]
  | cons d s ih =>
    intro fuel p c h
    cases fuel with
    | zero => simp at h
    | succ n =>
      simp only [List.length_cons, Nat.add_lt_add_iff_right] at h
      by_cases hd : inClass rs d = true
      · simp [plusLoop, run_cls_cons, greedy, hd, ih n (p + 1) c h]
      · simp [plusLoop, run_cls_cons, greedy, hd]

theorem greedy_flatMap (P : Char → Bool) (g : Thread → List Thread)
    (hg : ∀ (p : Nat) (d : Char) (r : List Char) (c : List (Nat × Nat × Nat)),
      P d = true → g ⟨p, d :: r, c⟩ = []) (s : List Char) :
    ∀ (p : Nat) (c : List (Nat × Nat × Nat)),
      (greedy P p c s).flatMap g =
        if s.takeWhile P = [] then []
        else g ⟨p + (s.takeWhile P).length, s.dropWhile P, c⟩ := by
  induction s with
  | nil => intro p c; simp [greedy]
  | cons d s ih =>
    intro p c
    by_cases hd : P d = true
    · simp only [greedy, hd, if_true, List.flatMap_append, ih, List.takeWhile_cons,
        List.dropWhile_cons, List.flatMap_cons, List.flatMap_nil, List.append_nil,
        List.length_cons]
      cases s with
      | nil => simp
      | cons e s =>
        by_cases he : P e = true
        · simp [he, hg, List.takeWhile_cons, List.dropWhile_cons]
          congr 2
          omega
        · simp [he, List.takeWhile_cons, List.dropWhile_cons]
    · simp [greedy, hd, List.takeWhile_cons]

theorem run_lit_cons (a : Char) (p : Nat) (d : Char) (s : List Char)
    (c : List (Nat × Nat × Nat)) :
    run (.lit a) ⟨p, d :: s, c⟩ = if d = a then [⟨p + 1, s, c⟩] else [] := rfl

theorem run_lit_nil (a : Char) (p : Nat) (c : List (Nat × Nat × Nat)) :
    run (.lit a) ⟨p, [], c⟩ = [] := rfl

theorem isAlnum_ne {d : Char} (h : isAlnum d = true) :
    d ≠ '[' ∧ d ≠ ']' ∧ d ≠ '/' ∧ d ≠ '\\' ∧ d ≠ '.' ∧ d ≠ '&' ∧ d ≠ '\uFFFD' := by
  refine ⟨?_, ?_, ?_, ?_, ?_, ?_, ?_⟩ <;> (rintro rfl; revert h; decide)

theorem run_plus_alnum (g : Thread → List Thread)
    (hg : ∀ (p : Nat) (d : Char) (r : List Char) (c : List (Nat × Nat × Nat)),
      isAlnum d = true → g ⟨p, d :: r, c⟩ = [])
    (p : Nat) (s : List Char) (c : List (Nat × Nat × Nat)) :
    (run (.plus (.cls alnum)) ⟨p, s, c⟩).flatMap g =
      if s.takeWhile isAlnum = [] then []
      else g ⟨p + (s.takeWhile isAlnum).length, s.dropWhile isAlnum, c⟩ := by
  have h1 : run (.plus (.cls alnum)) ⟨p, s, c⟩ = greedy isAlnum p c s := by
    show plusLoop (run (.cls alnum)) (s.length + 1) ⟨p, s, c⟩ = _
    exact plusLoop_cls alnum s _ p c (Nat.lt_succ_self _)
  rw [h1]
  exact greedy_flatMap isAlnum g hg s p c

theorem run_link (p : Nat) (s : List Char) (c : List (Nat × Nat × Nat)) :
    run linkRegexp ⟨p, s, c⟩ =
      match tokenAt s with
      | some (t, y) => [⟨p + t.length + 2, y, c⟩]
      | none => [] := by
  cases s with
  | nil => simp [linkRegexp, run, tokenAt]
  | cons d r =>
    by_cases hd : d = '['
    · subst hd
      have hg : ∀ (p : Nat) (d : Char) (r : List Char) (c : List (Nat × Nat × Nat)),
          isAlnum d = true → run (.lit ']') ⟨p, d :: r, c⟩ = [] := by
        intro p d r c h
        simp [run_lit_cons, (isAlnum_ne h).2.1]
      have h2 : run linkRegexp ⟨p, '[' :: r, c⟩ =
          (run (.plus (.cls alnum)) ⟨p + 1, r, c⟩).flatMap (run (.lit ']')) := by
        simp [linkRegexp, run]
      rw [h2, run_plus_alnum _ hg]
      by_cases ht : r.takeWhile isAlnum = []
      · simp [tokenAt, ht]
      · cases hdw : r.dropWhile isAlnum with
        | nil => simp [tokenAt, ht, hdw, run_lit_nil]
        | cons e y =>
          by_cases he : e = ']'
          · subst he
            simp [tokenAt, ht, hdw, run_lit_cons]
            omega
          · simp [tokenAt, ht, hdw, run_lit_cons, he]
    · simp [linkRegexp, run, tokenAt, hd]

theorem tokenAt_some {s t y : List Char} (h : tokenAt s = some (t, y)) :
    s = '[' :: (t ++ ']' :: y) ∧ t ≠ [] ∧ ∀ c ∈ t, isAlnum c = true := by
  cases s with
  | nil => simp [tokenAt] at h
  | cons d r =>
    simp only [tokenAt] at h
    split at h
    · rename_i hc
      obtain ⟨h1, h2, h3⟩ := hc
      simp only [Option.some.injEq, Prod.mk.injEq] at h
      obtain ⟨ht, hy⟩ := h
      subst h1
      refine ⟨?_, ht ▸ h2, ?_⟩
      · have h4 := List.takeWhile_append_dropWhile isAlnum r
        cases hdw : r.dropWhile isAlnum with
        | nil => simp [hdw] at h3
        | cons e y1 =>
          simp [hdw] at h3 hy
          subst h3 hy
          rw [hdw, ht] at h4
          rw [h4]
      · intro c hc
        rw [← ht] at hc
        exact (List.mem_takeWhile_imp hc)
    · simp at h

theorem tokenAt_token {t : List Char} (y : List Char) (ht : t ≠ [])
    (hal : ∀ c ∈ t, isAlnum c = true) : tokenAt ('[' :: (t ++ ']' :: y)) = some (t, y) := by
  have h1 : (t ++ ']' :: y).takeWhile isAlnum = t := by
    rw [List.takeWhile_append_of_pos hal]
    simp [List.takeWhile_cons, show isAlnum ']' = false by decide]
  have h2 : (t ++ ']' :: y).dropWhile isAlnum = ']' :: y := by
    rw [List.dropWhile_append_of_pos hal]
    simp [List.dropWhile_cons, show isAlnum ']' = false by decide]
  simp [tokenAt, h1, h2, ht]

/-! ## Division of a text into pieces -/

theorem segmentsFrom_skip (a y : List Char) :
    segmentsFrom a.length (a ++ y) = segmentsFrom 0 y := by
  induction a with
  | nil => rfl
  | cons d a ih => simpa [segmentsFrom] using ih

theorem segments_nil : segments [] = [] := rfl

theorem segments_token {s t y : List Char} (h : tokenAt s = some (t, y)) :
    segments s = .link t :: segments y := by
  obtain ⟨hs, -, -⟩ := tokenAt_some h
  subst hs
  have h1 := segmentsFrom_skip (t ++ [']']) y
  simp only [List.length_append, List.length_singleton, List.append_assoc,
    List.singleton_append] at h1
  simp [segments, segmentsFrom, h, h1]

theorem segments_text {c : Char} {r : List Char} (h : tokenAt (c :: r) = none) :
    segments (c :: r) = .text c :: segments r := by
  simp [segments, segmentsFrom, h]

theorem search_link_none (s : List Char) :
    ∀ p : Nat, search linkRegexp p s = none → segments s = s.map .text := by
  induction s with
  | nil => intro p _; rfl
  | cons c r ih =>
    intro p h
    simp only [search, run_link] at h
    cases ht : tokenAt (c :: r) with
    | some ty => simp [ht] at h
    | none =>
      simp only [ht, List.head?_nil] at h
      rw [segments_text ht, ih (p + 1) h, List.map_cons]

theorem search_link_some (s : List Char) :
    ∀ (p : Nat) (a : Match), search linkRegexp p s = some a →
      ∃ pre t y, s = pre ++ '[' :: (t ++ ']' :: y) ∧ a.start = p + pre.length ∧
        a.stop = p + pre.length + t.length + 2 ∧ t ≠ [] ∧ (∀ c ∈ t, isAlnum c = true) ∧
        segments s = pre.map .text ++ .link t :: segments y := by
  induction s with
  | nil => intro p a h; simp [search, run_link, tokenAt] at h
  | cons c r ih =>
    intro p a h
    simp only [search, run_link] at h
    cases ht : tokenAt (c :: r) with
    | some ty =>
      obtain ⟨t, y⟩ := ty
      simp only [ht, List.head?_cons, Option.some.injEq] at h
      obtain ⟨hs, hne, hal⟩ := tokenAt_some ht
      refine ⟨[], t, y, by simpa using hs, by simp [← h], by simp [← h], hne, hal, ?_⟩
      simpa using segments_token ht
    | none =>
      simp only [ht, List.head?_nil] at h
      obtain ⟨pre, t, y, hs, h0, h1, hne, hal, hseg⟩ := ih (p + 1) a h
      refine ⟨c :: pre, t, y, by simp [hs], by simp [h0]; omega, by simp [h1]; omega, hne, hal, ?_⟩
      rw [segments_text ht, hseg]
      simp

/-! ## The callback and the replacement loop -/

theorem slice_token (t : List Char) :
    slice (String.mk ('[' :: (t ++ [']']))) 1
      (((String.mk ('[' :: (t ++ [']']))).length : Int) - 1) = some (String.mk t) := by
  have hlen : (String.mk ('[' :: (t ++ [']']))).length = t.length + 2 := by
    simp [String.length]
  have h1 : ((t.length + 2 : Nat) : Int) - 1 = ((t.length + 1 : Nat) : Int) := by
    push_cast; ring
  rw [hlen, h1]
  have hc : (0 : Int) ≤ 1 ∧ (1 : Int) ≤ ((t.length + 1 : Nat) : Int) ∧
      ((t.length + 1 : Nat) : Int) ≤ ((String.mk ('[' :: (t ++ [']']))).length : Int) := by
    rw [hlen]
    refine ⟨by decide, ?_, ?_⟩ <;> · push_cast; omega
  rw [slice, if_pos hc]
  simp [substr, List.take_append_eq_append_take]

theorem linkReplData_token (t : List Char) :
    linkReplData ('[' :: (t ++ [']'])) = some (anchor t) := by
  simp only [linkReplData, linkRepl, slice_token]
  simp [anchor, String.data_append]

theorem substr_mid (A B C : List Char) (lo hi : Nat) (hlo : lo = A.length)
    (hhi : hi = A.length + B.length) : substr (A ++ (B ++ C)) lo hi = B := by
  subst hlo hhi
  rw [substr, List.take_append, List.drop_left, List.take_left]

theorem flatMap_out_text (l : List Char) : (l.map Seg.text).flatMap Seg.out = l := by
  induction l with
  | nil => rfl
  | cons c l ih => simp [Seg.out, ih]

theorem flatMap_call_text (l : List Char) : (l.map Seg.text).flatMap Seg.call = [] := by
  induction l with
  | nil => rfl
  | cons c l ih => simp [Seg.call, ih]

theorem flatMap_src_text (l : List Char) : (l.map Seg.text).flatMap Seg.src = l := by
  induction l with
  | nil => rfl
  | cons c l ih => simp [Seg.src, ih]

theorem replaceAll_link (fuel : Nat) :
    ∀ (src : List Char) (p : Nat) (buf : List Char) (calls : List (List Char)),
      p ≤ src.length → src.length - p < fuel →
      replaceAll linkRegexp src linkReplData fuel ⟨p, p, buf, calls⟩ =
        ⟨calls ++ (segments (src.drop p)).flatMap Seg.call,
          some (buf ++ (segments (src.drop p)).flatMap Seg.out)⟩ := by
  induction fuel with
  | zero => intro src p buf calls _ h; omega
  | succ n ih =>
    intro src p buf calls hp hfuel
    rw [replaceAll]
    simp only [hp, if_true, doExecute]
    cases hs : search linkRegexp p (src.drop p) with
    | none =>
      have h1 := search_link_none _ p hs
      rw [h1, flatMap_out_text, flatMap_call_text, List.append_nil]
    | some a =>
      obtain ⟨pre, t, y, hsrc, h0, h1, hne, hal, hseg⟩ := search_link_some _ p a hs
      have hlt : (src.take p).length = p := by simp [List.length_take, Nat.min_eq_left hp]
      have hsplit : src = src.take p ++ (pre ++ ('[' :: (t ++ [']']) ++ y)) := by
        have h2 : '[' :: (t ++ [']']) ++ y = '[' :: (t ++ ']' :: y) := by simp
        rw [h2, ← hsrc, List.take_append_drop]
      have hlen : src.length = p + (pre.length + (t.length + 2 + y.length)) := by
        have h3 := congrArg List.length hsplit
        simp only [List.length_append, hlt, List.length_cons, List.length_nil] at h3
        omega
      have hpre : substr src p a.start = pre := by
        rw [hsplit]
        exact substr_mid _ _ _ _ _ hlt.symm (by rw [hlt, h0])
      have htok : substr src a.start a.stop = '[' :: (t ++ [']']) := by
        have h4 : src = (src.take p ++ pre) ++ ('[' :: (t ++ [']']) ++ y) := by
          rw [List.append_assoc]; exact hsplit
        rw [h4]
        refine substr_mid _ _ _ _ _ ?_ ?_
        · rw [List.length_append, hlt, h0]
        · simp only [List.length_append, hlt, List.length_cons, List.length_nil, h1]
          omega
      have hdrop : src.drop a.stop = y := by
        have h5 : src = (src.take p ++ pre ++ '[' :: (t ++ [']'])) ++ y := by
          simp only [List.append_assoc]; exact hsplit
        rw [h5]
        refine List.drop_left' ?_
        simp only [List.length_append, hlt, List.length_cons, List.length_nil, h1]
        omega
      have hw : (if p < src.length then 1 else 0) = 1 := if_pos (by omega)
      have hcond : a.stop > p ∨ a.start = 0 := Or.inl (by omega)
      have hsp : (if p + 1 > a.stop then p + 1 else if p + 1 > a.stop then p + 1 else a.stop)
          = a.stop := by
        rw [if_neg (by omega), if_neg (by omega)]
      simp only [hw, hsp, hcond, if_true, htok, linkReplData_token, hpre]
      rw [ih src a.stop _ _ (by omega) (by omega), hdrop, hseg]
      simp [List.flatMap_append, flatMap_out_text, flatMap_call_text, Seg.call, Seg.out]

theorem replaceAllTrace_link (src : String) :
    replaceAllTrace linkRegexp src linkRepl =
      ⟨(segments src.data).flatMap Seg.call, some ((segments src.data).flatMap Seg.out)⟩ := by
  have h := replaceAll_link (src.length + 2) src.data 0 [] [] (Nat.zero_le _)
    (by show src.data.length - 0 < src.data.length + 2; omega)
  rw [List.drop_zero, List.nil_append, List.nil_append] at h
  exact h

theorem toHTML_eq (x : String) :
    toHTML x = some (String.mk ((segments (x.data.flatMap escapeChar)).flatMap Seg.out)) := by
  simp [toHTML, ReplaceAllStringFunc, replaceAllTrace_link, HTMLEscapeString]

/-! ## Properties of the division into pieces -/

theorem segments_induction {motive : List Char → Prop} (nil : motive [])
    (text : ∀ c r, tokenAt (c :: r) = none → motive r → motive (c :: r))
    (link : ∀ t y, t ≠ [] → (∀ c ∈ t, isAlnum c = true) → motive y →
      motive ('[' :: (t ++ ']' :: y))) :
    ∀ s, motive s := by
  have key : ∀ (n : Nat) (s : List Char), s.length ≤ n → motive s := by
    intro n
    induction n with
    | zero =>
      intro s hs
      have h0 : s = [] := List.length_eq_zero.mp (Nat.le_zero.mp hs)
      rw [h0]; exact nil
    | succ n ih =>
      intro s hs
      cases s with
      | nil => exact nil
      | cons c r =>
        cases ht : tokenAt (c :: r) with
        | none => exact text c r ht (ih r (by simpa using hs))
        | some ty =>
          obtain ⟨t, y⟩ := ty
          obtain ⟨hs1, hne, hal⟩ := tokenAt_some ht
          rw [hs1]
          refine link t y hne hal (ih y ?_)
          have h2 := congrArg List.length hs1
          simp only [List.length_cons, List.length_append] at h2 hs
          omega
  intro s
  exact key s.length s (Nat.le_refl _)

theorem segments_link_cons {t : List Char} (y : List Char) (ht : t ≠ [])
    (hal : ∀ c ∈ t, isAlnum c = true) :
    segments ('[' :: (t ++ ']' :: y)) = .link t :: segments y :=
  segments_token (tokenAt_token y ht hal)

theorem segments_src (s : List Char) : (segments s).flatMap Seg.src = s := by
  induction s using segments_induction with
  | nil => rfl
  | text c r ht ih => simp [segments_text ht, Seg.src, ih]
  | link t y hne hal ih => simp [segments_link_cons y hne hal, Seg.src, ih]

theorem segments_mem_link {s t : List Char} (h : Seg.link t ∈ segments s) :
    t ≠ [] ∧ ∀ c ∈ t, isAlnum c = true := by
  induction s using segments_induction with
  | nil => simp [segments_nil] at h
  | text c r ht ih =>
    rw [segments_text ht] at h
    simp at h
    exact ih h
  | link u y hne hal ih =>
    rw [segments_link_cons y hne hal] at h
    simp at h
    rcases h with h | h
    · subst h; exact ⟨hne, hal⟩
    · exact ih h

theorem segments_mem_text {s : List Char} {c : Char} (h : Seg.text c ∈ segments s) :
    c ∈ s := by
  induction s using segments_induction with
  | nil => simp [segments_nil] at h
  | text d r ht ih =>
    rw [segments_text ht] at h
    simp at h
    rcases h with h | h
    · simp [h]
    · simp [ih h]
  | link u y hne hal ih =>
    rw [segments_link_cons y hne hal] at h
    simp at h
    simp [ih h]

theorem takeWhile_append_stop (P : Char → Bool) (r W : List Char)
    (hW : ∀ d ∈ W.head?, P d = false) : (r ++ W).takeWhile P = r.takeWhile P := by
  induction r with
  | nil =>
    cases W with
    | nil => rfl
    | cons e W => simp [List.takeWhile_cons, hW e (by simp)]
  | cons d r ih => simp [List.takeWhile_cons, ih]

theorem dropWhile_append_stop (P : Char → Bool) (r W : List Char)
    (hW : ∀ d ∈ W.head?, P d = false) : (r ++ W).dropWhile P = r.dropWhile P ++ W := by
  induction r with
  | nil =>
    cases W with
    | nil => rfl
    | cons e W => simp [List.dropWhile_cons, hW e (by simp)]
  | cons d r ih =>
    by_cases hd : P d = true
    · simp [List.dropWhile_cons, hd, ih]
    · simp [List.dropWhile_cons, hd]

theorem tokenAt_append (x W : List Char) (hx : x ≠ []) (hW : W.head? = some '[') :
    tokenAt (x ++ W) = (tokenAt x).map fun uz => (uz.1, uz.2 ++ W) := by
  cases x with
  | nil => exact absurd rfl hx
  | cons c r =>
    have hstop : ∀ d ∈ W.head?, isAlnum d = false := by
      intro d hd
      rw [hW] at hd
      simp at hd
      subst hd
      decide
    simp only [List.cons_append, tokenAt, takeWhile_append_stop isAlnum r W hstop,
      dropWhile_append_stop isAlnum r W hstop]
    cases hdw : r.dropWhile isAlnum with
    | nil =>
      cases W with
      | nil => simp at hW
      | cons e W =>
        simp at hW
        subst hW
        simp
    | cons e z =>
      by_cases hc : c = '[' ∧ r.takeWhile isAlnum ≠ [] ∧ e = ']'
      · simp [hc]
      · simp only [List.cons_append, List.head?_cons, Option.some.injEq, List.tail_cons]
        rw [if_neg hc, if_neg hc]
        rfl

theorem segments_append (W : List Char) (hW : W.head? = some '[') (x : List Char) :
    segments (x ++ W) = segments x ++ segments W := by
  induction x using segments_induction with
  | nil => rfl
  | text c r ht ih =>
    have h1 : tokenAt (c :: r ++ W) = none := by
      rw [tokenAt_append _ W (by simp) hW, ht]; rfl
    rw [segments_text ht]
    rw [List.cons_append] at h1 ⊢
    rw [segments_text h1, ih]
    rfl
  | link t y hne hal ih =>
    have h1 : '[' :: (t ++ ']' :: y) ++ W = '[' :: (t ++ ']' :: (y ++ W)) := by simp
    rw [h1, segments_link_cons _ hne hal, segments_link_cons _ hne hal, ih]
    rfl

/-! ## The escaper -/

theorem escapeChar_plain {c : Char} (h : isPlain c = true) : escapeChar c = [c] := by
  simp only [isPlain, Bool.and_eq_true, bne_iff_ne, ne_eq] at h
  obtain ⟨⟨⟨⟨⟨h0, h1⟩, h2⟩, h3⟩, h4⟩, h5⟩ := h
  simp [escapeChar, h0, h1, h2, h3, h4, h5]

theorem isPlain_of_isAlnum {c : Char} (h : isAlnum c = true) : isPlain c = true := by
  simp only [isPlain, Bool.and_eq_true, bne_iff_ne, ne_eq]
  refine ⟨⟨⟨⟨⟨?_, ?_⟩, ?_⟩, ?_⟩, ?_⟩, ?_⟩ <;> (rintro rfl; revert h; decide)

theorem escapeChar_cases (c : Char) :
    (isPlain c = true ∧ escapeChar c = [c]) ∨ (c = '\x00' ∧ escapeChar c = ['\uFFFD']) ∨
      (c = '\x22' ∧ escapeChar c = "&#34;".data) ∨ (c = '\x27' ∧ escapeChar c = "&#39;".data) ∨
      (c = '&' ∧ escapeChar c = "&amp;".data) ∨ (c = '<' ∧ escapeChar c = "&lt;".data) ∨
      (c = '>' ∧ escapeChar c = "&gt;".data) := by
  by_cases hp : isPlain c = true
  · exact Or.inl ⟨hp, escapeChar_plain hp⟩
  · right
    simp only [isPlain, Bool.and_eq_true, bne_iff_ne, ne_eq, not_and, not_not] at hp
    by_cases h0 : c = '\x00'
    · subst h0; exact Or.inl ⟨rfl, rfl⟩
    by_cases h1 : c = '\x22'
    · subst h1; exact Or.inr (Or.inl ⟨rfl, rfl⟩)
    by_cases h2 : c = '\x27'
    · subst h2; exact Or.inr (Or.inr (Or.inl ⟨rfl, rfl⟩))
    by_cases h3 : c = '&'
    · subst h3; exact Or.inr (Or.inr (Or.inr (Or.inl ⟨rfl, rfl⟩)))
    by_cases h4 : c = '<'
    · subst h4; exact Or.inr (Or.inr (Or.inr (Or.inr (Or.inl ⟨rfl, rfl⟩))))
    · have h5 := hp ⟨⟨⟨⟨h0, h1⟩, h2⟩, h3⟩, h4⟩
      subst h5; exact Or.inr (Or.inr (Or.inr (Or.inr (Or.inr ⟨rfl, rfl⟩))))

theorem escapeChar_safe {c e : Char} (h : e ∈ escapeChar c) :
    e ≠ '<' ∧ e ≠ '>' ∧ e ≠ '\x22' ∧ e ≠ '\x27' ∧ e ≠ '\x00' := by
  rcases escapeChar_cases c with ⟨hp, hc⟩ | ⟨-, hc⟩ | ⟨-, hc⟩ | ⟨-, hc⟩ | ⟨-, hc⟩ | ⟨-, hc⟩ | ⟨-, hc⟩
  · rw [hc] at h
    simp only [List.mem_singleton] at h
    subst h
    simp only [isPlain, Bool.and_eq_true, bne_iff_ne, ne_eq] at hp
    obtain ⟨⟨⟨⟨⟨h0, h1⟩, h2⟩, h3⟩, h4⟩, h5⟩ := hp
    exact ⟨h4, h5, h1, h2, h0⟩
  all_goals
    rw [hc] at h
    revert e
    decide

theorem escapeChar_no_bracket {c e : Char} (hb : c ≠ '[') (h : e ∈ escapeChar c) : e ≠ '[' := by
  rcases escapeChar_cases c with ⟨-, hc⟩ | ⟨-, hc⟩ | ⟨-, hc⟩ | ⟨-, hc⟩ | ⟨-, hc⟩ | ⟨-, hc⟩ | ⟨-, hc⟩
  · rw [hc] at h
    simp only [List.mem_singleton] at h
    subst h
    assumption
  all_goals
    rw [hc] at h
    revert e
    decide

theorem escapeChar_head {d : Char} (hd : isAlnum d = false) :
    ∃ h tl, escapeChar d = h :: tl ∧ isAlnum h = false ∧ (h = ']' ↔ d = ']') := by
  rcases escapeChar_cases d with ⟨-, hc⟩ | ⟨h0, hc⟩ | ⟨h0, hc⟩ | ⟨h0, hc⟩ | ⟨h0, hc⟩ | ⟨h0, hc⟩ |
    ⟨h0, hc⟩
  · exact ⟨d, [], hc, hd, Iff.rfl⟩
  all_goals
    subst h0
    exact ⟨_, _, hc, by decide, by decide⟩

theorem escapeChar_length (c : Char) : 1 ≤ (escapeChar c).length := by
  rcases escapeChar_cases c with ⟨-, hc⟩ | ⟨-, hc⟩ | ⟨-, hc⟩ | ⟨-, hc⟩ | ⟨-, hc⟩ | ⟨-, hc⟩ | ⟨-, hc⟩ <;>
    rw [hc] <;> simp

theorem escapeChar_amp {c : Char}
    (h : c = '&' ∨ c = '<' ∨ c = '>' ∨ c = '\x22' ∨ c = '\x27') : '&' ∈ escapeChar c := by
  rcases h with h | h | h | h | h <;> subst h <;> decide

/-! ## Texts without a link token -/

theorem hasToken_iff (s : List Char) :
    hasToken s = true ↔
      ∃ a t b, t ≠ [] ∧ (∀ c ∈ t, isAlnum c = true) ∧ s = a ++ '[' :: (t ++ ']' :: b) := by
  induction s with
  | nil => simp [hasToken]
  | cons c r ih =>
    simp only [hasToken, Bool.or_eq_true, ih]
    constructor
    · rintro (h | ⟨a, t, b, hne, hal, hs⟩)
      · obtain ⟨⟨t, y⟩, hty⟩ := Option.isSome_iff_exists.mp h
        obtain ⟨hs, hne, hal⟩ := tokenAt_some hty
        exact ⟨[], t, y, hne, hal, by simpa using hs⟩
      · exact ⟨c :: a, t, b, hne, hal, by simp [hs]⟩
    · rintro ⟨a, t, b, hne, hal, hs⟩
      cases a with
      | nil =>
        left
        rw [hs, List.nil_append, tokenAt_token b hne hal]
        rfl
      | cons d a =>
        right
        simp only [List.cons_append, List.cons.injEq] at hs
        exact ⟨a, t, b, hne, hal, hs.2⟩

theorem segments_of_not_hasToken (s : List Char) (h : hasToken s = false) :
    segments s = s.map .text := by
  induction s with
  | nil => rfl
  | cons c r ih =>
    simp only [hasToken, Bool.or_eq_false_iff] at h
    have ht : tokenAt (c :: r) = none := by
      cases hh : tokenAt (c :: r) with
      | none => rfl
      | some v => simp [hh] at h
    rw [segments_text ht, ih h.2, List.map_cons]

theorem tokenAt_of_ne {c : Char} (r : List Char) (hc : c ≠ '[') : tokenAt (c :: r) = none := by
  simp [tokenAt, hc]

theorem hasToken_append_no_bracket (l R : List Char) (hl : ∀ e ∈ l, e ≠ '[') :
    hasToken (l ++ R) = hasToken R := by
  induction l with
  | nil => rfl
  | cons e l ih =>
    have h1 : e ≠ '[' := hl e (by simp)
    have h2 := ih fun d hd => hl d (by simp [hd])
    simp [hasToken, tokenAt_of_ne _ h1, h2]

theorem takeWhile_escape (r : List Char) :
    (r.flatMap escapeChar).takeWhile isAlnum = r.takeWhile isAlnum := by
  induction r with
  | nil => rfl
  | cons d r ih =>
    by_cases hd : isAlnum d = true
    · simp [List.flatMap_cons, escapeChar_plain (isPlain_of_isAlnum hd), List.takeWhile_cons,
        hd, ih]
    · have hd1 : isAlnum d = false := by simpa using hd
      obtain ⟨h, tl, he, hh, -⟩ := escapeChar_head hd1
      simp [List.flatMap_cons, he, List.takeWhile_cons, hd1, hh]

theorem dropWhile_escape_head (r : List Char) :
    ((r.flatMap escapeChar).dropWhile isAlnum).head? = some ']' ↔
      (r.dropWhile isAlnum).head? = some ']' := by
  induction r with
  | nil => simp
  | cons d r ih =>
    by_cases hd : isAlnum d = true
    · simpa [List.flatMap_cons, escapeChar_plain (isPlain_of_isAlnum hd), List.dropWhile_cons,
        hd] using ih
    · have hd1 : isAlnum d = false := by simpa using hd
      obtain ⟨h, tl, he, hh, hiff⟩ := escapeChar_head hd1
      simp [List.flatMap_cons, he, List.dropWhile_cons, hd1, hh, hiff]

theorem tokenAt_escape (r : List Char) :
    (tokenAt ('[' :: r.flatMap escapeChar)).isSome = (tokenAt ('[' :: r)).isSome := by
  simp only [tokenAt, takeWhile_escape, true_and]
  by_cases h : (r.dropWhile isAlnum).head? = some ']'
  · have h1 := (dropWhile_escape_head r).mpr h
    by_cases ht : r.takeWhile isAlnum = [] <;> simp [h, h1, ht]
  · have h1 : ¬ ((r.flatMap escapeChar).dropWhile isAlnum).head? = some ']' :=
      fun hh => h ((dropWhile_escape_head r).mp hh)
    simp [h, h1]

theorem hasToken_escape (x : List Char) : hasToken (x.flatMap escapeChar) = hasToken x := by
  induction x with
  | nil => rfl
  | cons c r ih =>
    rw [List.flatMap_cons]
    by_cases hc : c = '['
    · subst hc
      have he : escapeChar '[' = ['['] := by decide
      rw [he]
      show hasToken ('[' :: r.flatMap escapeChar) = hasToken ('[' :: r)
      simp only [hasToken, tokenAt_escape, ih]
    · rw [hasToken_append_no_bracket _ _ fun e he => escapeChar_no_bracket hc he, ih]
      simp [hasToken, tokenAt_of_ne _ hc]

theorem flatMap_escape_plain (l : List Char) (h : ∀ c ∈ l, isPlain c = true) :
    l.flatMap escapeChar = l := by
  induction l with
  | nil => rfl
  | cons c l ih =>
    rw [List.flatMap_cons, escapeChar_plain (h c (by simp)), ih fun d hd => h d (by simp [hd])]
    rfl

theorem length_flatMap_escape (l : List Char) : l.length ≤ (l.flatMap escapeChar).length := by
  induction l with
  | nil => simp
  | cons c l ih =>
    have := escapeChar_length c
    simp only [List.flatMap_cons, List.length_append, List.length_cons]
    omega

theorem length_flatMap_escape_amp (l : List Char) (h : '&' ∈ l) :
    l.length < (l.flatMap escapeChar).length := by
  induction l with
  | nil => simp at h
  | cons c l ih =>
    simp only [List.flatMap_cons, List.length_append, List.length_cons]
    rcases List.mem_cons.mp h with h1 | h1
    · subst h1
      have h2 : (escapeChar '&').length = 5 := by decide
      have := length_flatMap_escape l
      omega
    · have := ih h1
      have := escapeChar_length c
      omega

/-! ## The link transform -/

theorem escape_token (x y t : List Char) (hal : ∀ c ∈ t, isAlnum c = true) :
    (x ++ '[' :: (t ++ ']' :: y)).flatMap escapeChar =
      x.flatMap escapeChar ++ '[' :: (t ++ ']' :: y.flatMap escapeChar) := by
  have h1 : escapeChar '[' = ['['] := by decide
  have h2 : escapeChar ']' = [']'] := by decide
  have h3 : t.flatMap escapeChar = t :=
    flatMap_escape_plain t fun c hc => isPlain_of_isAlnum (hal c hc)
  simp [List.flatMap_append, List.flatMap_cons, h1, h2, h3]

theorem segments_token_between (X Y t : List Char) (ht : t ≠ [])
    (hal : ∀ c ∈ t, isAlnum c = true) :
    segments (X ++ '[' :: (t ++ ']' :: Y)) = segments X ++ .link t :: segments Y := by
  rw [segments_append _ (by simp) X, segments_link_cons Y ht hal]

/-- C3: every link token is replaced by its anchor whatever surrounds it:
`toHTML (x ++ "[" ++ t ++ "]" ++ y)` is `toHTML x`, then the anchor for `t`, then
`toHTML y`, for all texts `x`, `y` and every non-empty alphanumeric `t`; and
`toHTML "see [Home] page"` is `see <a href="/view/Home">Home</a> page`, in which
an anchor opens once and closes once. -/
theorem toHTML_link_token (x y t : String) (ht : t.data ≠ [])
    (hal : ∀ c ∈ t.data, isAlnum c = true) :
    (∃ hx hy, toHTML x = some hx ∧ toHTML y = some hy ∧
      toHTML (x ++ "[" ++ t ++ "]" ++ y) =
        some (hx ++ "<a href=\"/view/" ++ t ++ "\">" ++ t ++ "</a>" ++ hy)) ∧
    toHTML "see [Home] page" = some "see <a href=\"/view/Home\">Home</a> page" ∧
    occurrences "<a ".data "see <a href=\"/view/Home\">Home</a> page".data = 1 ∧
    occurrences "</a>".data "see <a href=\"/view/Home\">Home</a> page".data = 1 := by
  refine ⟨⟨_, _, toHTML_eq x, toHTML_eq y, ?_⟩, by decide, by decide, by decide⟩
  rw [toHTML_eq]
  have hb1 : "[".data = ['['] := rfl
  have hb2 : "]".data = [']'] := rfl
  have hd : (x ++ "[" ++ t ++ "]" ++ y).data = x.data ++ '[' :: (t.data ++ ']' :: y.data) := by
    simp [String.data_append, hb1, hb2]
  rw [hd, escape_token _ _ _ hal, segments_token_between _ _ _ ht hal]
  refine congrArg some (String.ext ?_)
  simp [String.data_append, List.flatMap_append, Seg.out, anchor]

theorem toHTML_link_token_witness :
    ("Home".data ≠ [] ∧ ∀ c ∈ "Home".data, isAlnum c = true) ∧
    ∃ hx hy, toHTML "see " = some hx ∧ toHTML " page" = some hy ∧
      toHTML ("see " ++ "[" ++ "Home" ++ "]" ++ " page") =
        some (hx ++ "<a href=\"/view/" ++ "Home" ++ "\">" ++ "Home" ++ "</a>" ++ hy) :=
  ⟨⟨by decide, by decide⟩,
    (toHTML_link_token "see " " page" "Home" (by decide) (by decide)).1⟩

/-- C4: the result of `toHTML` is the escaped text with every link token replaced
by an anchor `<a href="/view/T">T</a>`, `T` non-empty and alphanumeric; outside
these anchors it has none of the characters `<`, `>`, `"` and `'`, and it has no
`'` anywhere; `toHTML "<b>"` is `&lt;b&gt;`, in which `<b>` does not occur. -/
theorem toHTML_safe (x : String) :
    (∃ segs : List Seg,
      (HTMLEscapeString x).data = segs.flatMap Seg.src ∧
      toHTML x = some (String.mk (segs.flatMap Seg.out)) ∧
      (∀ c, Seg.text c ∈ segs → c ≠ '<' ∧ c ≠ '>' ∧ c ≠ '\x22' ∧ c ≠ '\x27') ∧
      (∀ t, Seg.link t ∈ segs → t ≠ [] ∧ (∀ c ∈ t, isAlnum c = true) ∧
        Seg.out (.link t) = ("<a href=\"/view/" ++ String.mk t ++ "\">" ++ String.mk t
          ++ "</a>").data)) ∧
    (∀ h, toHTML x = some h → '\x27' ∉ h.data) ∧
    toHTML "<b>" = some "&lt;b&gt;" ∧ occurrences "<b>".data "&lt;b&gt;".data = 0 := by
  have hseg : ∀ c, Seg.text c ∈ segments (x.data.flatMap escapeChar) →
      c ≠ '<' ∧ c ≠ '>' ∧ c ≠ '\x22' ∧ c ≠ '\x27' := by
    intro c hc
    obtain ⟨d, -, hd⟩ := List.mem_flatMap.mp (segments_mem_text hc)
    obtain ⟨h1, h2, h3, h4, -⟩ := escapeChar_safe hd
    exact ⟨h1, h2, h3, h4⟩
  refine ⟨⟨segments (x.data.flatMap escapeChar), ?_, toHTML_eq x, hseg, ?_⟩, ?_, by decide,
    by decide⟩
  · rw [segments_src]; rfl
  · intro t ht
    obtain ⟨h1, h2⟩ := segments_mem_link ht
    exact ⟨h1, h2, by simp [Seg.out, anchor, String.data_append]⟩
  · intro h hh
    rw [toHTML_eq] at hh
    simp only [Option.some.injEq] at hh
    subst hh
    simp only [List.mem_flatMap, not_exists, not_and]
    intro sg hsg
    cases sg with
    | text c => simpa [Seg.out] using Ne.symm (hseg c hsg).2.2.2
    | link t =>
      obtain ⟨-, h2⟩ := segments_mem_link hsg
      have h3 : '\x27' ∉ t := fun hm => absurd (h2 _ hm) (by decide)
      simp only [Seg.out, anchor, List.mem_append, not_or]
      exact ⟨⟨⟨⟨by decide, h3⟩, by decide⟩, h3⟩, by decide⟩

theorem segments_escape_of_not_hasToken (x : List Char) (h : hasToken x = false) :
    segments (x.flatMap escapeChar) = (x.flatMap escapeChar).map .text :=
  segments_of_not_hasToken _ (by rw [hasToken_escape, h])

theorem toHTML_of_not_hasToken (x : String) (h : hasToken x.data = false) :
    toHTML x = some (HTMLEscapeString x) := by
  rw [toHTML_eq, segments_escape_of_not_hasToken _ h, flatMap_out_text]
  rfl

theorem not_hasToken_of_no_token {s : List Char}
    (h : ¬ ∃ a t b, t ≠ [] ∧ (∀ c ∈ t, isAlnum c = true) ∧ s = a ++ '[' :: (t ++ ']' :: b)) :
    hasToken s = false := by
  cases hh : hasToken s with
  | false => rfl
  | true => exact absurd ((hasToken_iff s).mp hh) h

theorem no_token_of_not_hasToken {s : List Char} (h : hasToken s = false) :
    ¬ ∃ a t b, t ≠ [] ∧ (∀ c ∈ t, isAlnum c = true) ∧ s = a ++ '[' :: (t ++ ']' :: b) := by
  intro hex
  rw [(hasToken_iff s).mpr hex] at h
  exact Bool.noConfusion h

/-- C5: for a text with no substring `[`, one or more alphanumeric characters,
`]`, `toHTML` calls the replacement callback not once and returns exactly the
escaped text. -/
theorem toHTML_no_token (x : String)
    (h : ¬ ∃ a t b, t ≠ [] ∧ (∀ c ∈ t, isAlnum c = true) ∧
      x.data = a ++ '[' :: (t ++ ']' :: b)) :
    toHTML x = some (HTMLEscapeString x) ∧
      (replaceAllTrace linkRegexp (HTMLEscapeString x) linkRepl).calls = [] := by
  have hx := not_hasToken_of_no_token h
  refine ⟨toHTML_of_not_hasToken x hx, ?_⟩
  rw [replaceAllTrace_link]
  show (segments (x.data.flatMap escapeChar)).flatMap Seg.call = []
  rw [segments_escape_of_not_hasToken _ hx, flatMap_call_text]

theorem toHTML_no_token_witness :
    toHTML "[]" = some "[]" ∧ toHTML "[bad!id]" = some "[bad!id]" ∧
      toHTML "[a b]" = some "[a b]" :=
  ⟨(toHTML_no_token "[]" (no_token_of_not_hasToken (by decide))).1,
    (toHTML_no_token "[bad!id]" (no_token_of_not_hasToken (by decide))).1,
    (toHTML_no_token "[a b]" (no_token_of_not_hasToken (by decide))).1⟩

/-- C6, as stated, fails: the text `&` has no bracket at all, `toHTML "&"` is
`&amp;`, and `toHTML "&amp;"` is `&amp;amp;`. -/
theorem toHTML_not_idempotent :
    '[' ∉ "&".data ∧ ']' ∉ "&".data ∧ toHTML "&" = some "&amp;" ∧
      toHTML "&amp;" = some "&amp;amp;" ∧ (toHTML "&").bind toHTML ≠ toHTML "&" := by
  decide

/-- C6, amended: for a text with no link token, applying `toHTML` to the result of
`toHTML` gives that result again exactly when the text has none of the characters
`&`, `<`, `>`, `"` and `'`. -/
theorem toHTML_idempotent_iff (x : String)
    (h : ¬ ∃ a t b, t ≠ [] ∧ (∀ c ∈ t, isAlnum c = true) ∧
      x.data = a ++ '[' :: (t ++ ']' :: b)) :
    (toHTML x).bind toHTML = toHTML x ↔
      ∀ c ∈ x.data, c ≠ '&' ∧ c ≠ '<' ∧ c ≠ '>' ∧ c ≠ '\x22' ∧ c ≠ '\x27' := by
  have hx := not_hasToken_of_no_token h
  have he : hasToken (HTMLEscapeString x).data = false := by
    show hasToken (x.data.flatMap escapeChar) = false
    rw [hasToken_escape, hx]
  rw [toHTML_of_not_hasToken x hx, Option.some_bind, toHTML_of_not_hasToken _ he]
  simp only [Option.some.injEq]
  constructor
  · intro heq c hc
    by_contra hcon
    have hsp : c = '&' ∨ c = '<' ∨ c = '>' ∨ c = '\x22' ∨ c = '\x27' := by
      by_contra hno
      simp only [not_or] at hno
      exact hcon hno
    have hamp : '&' ∈ (HTMLEscapeString x).data :=
      List.mem_flatMap.mpr ⟨c, hc, escapeChar_amp hsp⟩
    have hlt := length_flatMap_escape_amp _ hamp
    have hlen := congrArg (fun s : String => s.data.length) heq
    simp only [HTMLEscapeString] at hlen hlt
    omega
  · intro hall
    refine String.ext ?_
    show (x.data.flatMap escapeChar).flatMap escapeChar = x.data.flatMap escapeChar
    refine flatMap_escape_plain _ ?_
    intro e hmem
    obtain ⟨c, hc, hec⟩ := List.mem_flatMap.mp hmem
    obtain ⟨h1, h2, h3, h4, h5⟩ := hall c hc
    rcases escapeChar_cases c with ⟨hp, hcc⟩ | ⟨-, hcc⟩ | ⟨h0, -⟩ | ⟨h0, -⟩ | ⟨h0, -⟩ | ⟨h0, -⟩ |
      ⟨h0, -⟩
    · rw [hcc] at hec
      simp only [List.mem_singleton] at hec
      rw [hec]; exact hp
    · rw [hcc] at hec
      simp only [List.mem_singleton] at hec
      rw [hec]; decide
    · exact absurd h0 h4
    · exact absurd h0 h5
    · exact absurd h0 h1
    · exact absurd h0 h2
    · exact absurd h0 h3

theorem toHTML_idempotent_iff_witness :
    ((toHTML "plain text").bind toHTML = toHTML "plain text" ↔
      ∀ c ∈ "plain text".data, c ≠ '&' ∧ c ≠ '<' ∧ c ≠ '>' ∧ c ≠ '\x22' ∧ c ≠ '\x27') ∧
    ((toHTML "a<b").bind toHTML = toHTML "a<b" ↔
      ∀ c ∈ "a<b".data, c ≠ '&' ∧ c ≠ '<' ∧ c ≠ '>' ∧ c ≠ '\x22' ∧ c ≠ '\x27') :=
  ⟨toHTML_idempotent_iff "plain text" (no_token_of_not_hasToken (by decide)),
    toHTML_idempotent_iff "a<b" (no_token_of_not_hasToken (by decide))⟩

/-- C10: `toHTML` returns a result for every text; every string its callback
receives is a match of the link pattern, `[` then a non-empty alphanumeric term
then `]`, so it has length at least 3 and the slice `s[1:len(s)-1]` is in range
and is that term.  For `x[a][b]` the callback receives `[a]` and `[b]`. -/
theorem toHTML_total (x : String) :
    (∃ h, toHTML x = some h) ∧
    (∀ s ∈ (replaceAllTrace linkRegexp (HTMLEscapeString x) linkRepl).calls,
      3 ≤ s.length ∧ run linkRegexp ⟨0, s, []⟩ = [⟨s.length, [], []⟩] ∧
      ∃ t, t ≠ [] ∧ (∀ c ∈ t, isAlnum c = true) ∧ s = '[' :: (t ++ [']']) ∧
        slice (String.mk s) 1 (((String.mk s).length : Int) - 1) = some (String.mk t)) ∧
    (replaceAllTrace linkRegexp (HTMLEscapeString "x[a][b]") linkRepl).calls =
      ["[a]".data, "[b]".data] := by
  refine ⟨⟨_, toHTML_eq x⟩, ?_, by decide⟩
  intro s hs
  rw [replaceAllTrace_link] at hs
  obtain ⟨sg, hsg, hmem⟩ := List.mem_flatMap.mp hs
  cases sg with
  | text c => simp [Seg.call] at hmem
  | link t =>
    simp only [Seg.call, List.mem_singleton] at hmem
    obtain ⟨hne, hal⟩ := segments_mem_link hsg
    subst hmem
    have hpos : 0 < t.length := List.length_pos.mpr hne
    have hlen : ('[' :: (t ++ [']'])).length = t.length + 2 := by simp
    refine ⟨by rw [hlen]; omega, ?_, t, hne, hal, rfl, slice_token t⟩
    have h1 : '[' :: (t ++ [']']) = '[' :: (t ++ ']' :: []) := rfl
    rw [hlen, run_link, h1, tokenAt_token [] hne hal]
    simp

/-! ## The path validator -/

/-- The alternation `edit|save|view` of `validPath`. -/
theorem run_ops (op : String) (hop : op ∈ ops) (p : Nat) (rest : List Char)
    (c : List (Nat × Nat × Nat)) :
    run (.alt (lits "edit".data) (.alt (lits "save".data) (lits "view".data)))
      ⟨p, op.data ++ rest, c⟩ = [⟨p + 4, rest, c⟩] := by
  simp only [ops, List.mem_cons, List.mem_singleton, List.not_mem_nil, or_false] at hop
  rcases hop with rfl | rfl | rfl <;> simp [run, lits]

theorem mem_run_ops {t u : Thread}
    (h : u ∈ run (.alt (lits "edit".data) (.alt (lits "save".data) (lits "view".data))) t) :
    ∃ op ∈ ops, t.rest = op.data ++ u.rest := by
  simp only [run, List.mem_append] at h
  rcases h with h | h | h
  · exact ⟨"edit", by decide, (mem_run_lits h).1⟩
  · exact ⟨"save", by decide, (mem_run_lits h).1⟩
  · exact ⟨"view", by decide, (mem_run_lits h).1⟩

theorem mem_greedy (P : Char → Bool) {u : Thread} (s : List Char) :
    ∀ (p : Nat) (c : List (Nat × Nat × Nat)), u ∈ greedy P p c s →
      ∃ w, w ≠ [] ∧ (∀ d ∈ w, P d = true) ∧ s = w ++ u.rest := by
  induction s with
  | nil => intro p c h; simp [greedy] at h
  | cons d s ih =>
    intro p c h
    by_cases hd : P d = true
    · simp only [greedy, hd, if_true, List.mem_append, List.mem_singleton] at h
      rcases h with h | h
      · obtain ⟨w, -, hw, hs⟩ := ih _ _ h
        refine ⟨d :: w, by simp, ?_, by simp [hs]⟩
        intro e he
        rcases List.mem_cons.mp he with he | he
        · rw [he]; exact hd
        · exact hw e he
      · subst h
        exact ⟨[d], by simp, by simpa using hd, by simp⟩
    · simp [greedy, hd] at h

theorem run_validPath_valid (op : String) (hop : op ∈ ops) (t : List Char) (ht : t ≠ [])
    (hal : ∀ c ∈ t, isAlnum c = true) :
    run validPath ⟨0, '/' :: (op.data ++ '/' :: t), []⟩ =
      [⟨6 + t.length, [], [(2, 6, 6 + t.length), (1, 1, 5)]⟩] := by
  have hg : ∀ (p : Nat) (d : Char) (r : List Char) (c : List (Nat × Nat × Nat)),
      isAlnum d = true →
        (fun t1 : Thread => run .endText ⟨t1.pos, t1.rest, (2, 6, t1.pos) :: t1.caps⟩)
          ⟨p, d :: r, c⟩ = [] := by
    intro p d r c _
    simp [run]
  have h1 := run_plus_alnum
    (fun t1 : Thread => run .endText ⟨t1.pos, t1.rest, (2, 6, t1.pos) :: t1.caps⟩) hg 6 t
    [(1, 1, 5)]
  have h2 : t.takeWhile isAlnum = t := List.takeWhile_eq_self_iff.mpr hal
  have h3 : t.dropWhile isAlnum = [] := List.dropWhile_eq_nil_iff.mpr hal
  rw [h2, h3, if_neg ht] at h1
  have h4 : run validPath ⟨0, '/' :: (op.data ++ '/' :: t), []⟩ =
      (run (.plus (.cls alnum)) ⟨6, t, [(1, 1, 5)]⟩).flatMap
        fun t1 : Thread => run .endText ⟨t1.pos, t1.rest, (2, 6, t1.pos) :: t1.caps⟩ := by
    rw [validPath]
    simp only [run_cat, run_cap, run_beginText, run_lit_cons, if_true, List.flatMap_cons,
      List.flatMap_nil, List.append_nil, run_ops op hop, List.map_cons, List.map_nil,
      List.flatMap_map]
  rw [h4, h1]
  simp [run_endText]

theorem mem_run_validPath {t u : Thread} (h : u ∈ run validPath t) :
    ∃ op ∈ ops, ∃ w, w ≠ [] ∧ (∀ c ∈ w, isAlnum c = true) ∧
      t.rest = '/' :: (op.data ++ '/' :: w) := by
  rw [validPath] at h
  simp only [run_cat, List.mem_flatMap] at h
  obtain ⟨t1, h1, t2, h2, t3, h3, t4, h4, t5, h5, h6⟩ := h
  -- `^`
  rw [run_beginText] at h1
  have e1 : t1 = t := by
    by_cases hp : t.pos = 0
    · simpa [hp] using h1
    · simp [hp] at h1
  subst e1
  -- `/`
  have e2 : t1.rest = '/' :: t2.rest := by
    obtain ⟨p, s, c⟩ := t1
    cases s with
    | nil => simp [run_lit_nil] at h2
    | cons d s =>
      rw [run_lit_cons] at h2
      by_cases hd : d = '/'
      · simp [hd] at h2; subst h2; simp [hd]
      · simp [hd] at h2
  -- `(edit|save|view)`
  rw [run_cap, List.mem_map] at h3
  obtain ⟨v3, hv3, e3⟩ := h3
  obtain ⟨op, hop, e3a⟩ := mem_run_ops hv3
  have e3b : t3.rest = v3.rest := by rw [← e3]
  -- `/`
  have e4 : t3.rest = '/' :: t4.rest := by
    obtain ⟨p, s, c⟩ := t3
    cases s with
    | nil => simp [run_lit_nil] at h4
    | cons d s =>
      rw [run_lit_cons] at h4
      by_cases hd : d = '/'
      · simp [hd] at h4; subst h4; simp [hd]
      · simp [hd] at h4
  -- `([a-zA-Z0-9]+)`
  rw [run_cap, List.mem_map] at h5
  obtain ⟨v5, hv5, e5⟩ := h5
  have hv5a : v5 ∈ greedy isAlnum t4.pos t4.caps t4.rest := by
    have h7 : run (.plus (.cls alnum)) t4 = greedy isAlnum t4.pos t4.caps t4.rest :=
      plusLoop_cls alnum t4.rest _ t4.pos t4.caps (Nat.lt_succ_self _)
    rw [← h7]; exact hv5
  obtain ⟨w, hw, hal, e5a⟩ := mem_greedy isAlnum _ _ _ hv5a
  have e5b : t5.rest = v5.rest := by rw [← e5]
  -- `$`
  rw [run_endText] at h6
  have e6 : t5.rest = [] := by
    by_cases hr : t5.rest = []
    · exact hr
    · simp [hr] at h6
  refine ⟨op, hop, w, hw, hal, ?_⟩
  rw [e2, e3a, ← e3b, e4, e5a, ← e5b, e6, List.append_nil]

theorem search_validPath_succ (s : List Char) :
    ∀ p : Nat, search validPath (p + 1) s = none := by
  have h0 : ∀ (p : Nat) (r : List Char), run validPath ⟨p + 1, r, []⟩ = [] := by
    intro p r
    rw [validPath, run_cat, run_beginText]
    simp
  induction s with
  | nil => intro p; simp [search, h0]
  | cons c r ih => intro p; simp [search, h0, ih]

theorem doExecute_validPath (s : List Char) :
    doExecute validPath s 0 =
      (run validPath ⟨0, s, []⟩).head?.map fun t => ⟨0, t.pos, t.caps⟩ := by
  rw [doExecute, if_pos (Nat.zero_le _), List.drop_zero]
  cases s with
  | nil => rfl
  | cons c r =>
    rw [search]
    cases h : (run validPath ⟨0, c :: r, []⟩).head? with
    | none => simp [search_validPath_succ]
    | some t => rfl

theorem path_data (op t : String) :
    ("/" ++ op ++ "/" ++ t).data = '/' :: (op.data ++ '/' :: t.data) := by
  have h1 : "/".data = ['/'] := rfl
  simp [String.data_append, h1]

theorem ops_length {op : String} (hop : op ∈ ops) : op.data.length = 4 := by
  simp only [ops, List.mem_cons, List.mem_singleton, List.not_mem_nil, or_false] at hop
  rcases hop with rfl | rfl | rfl <;> rfl

theorem FindStringSubmatch_valid (op t : String) (hop : op ∈ ops) (ht : t.data ≠ [])
    (hal : ∀ c ∈ t.data, isAlnum c = true) :
    FindStringSubmatch validPath ("/" ++ op ++ "/" ++ t) = some ["/" ++ op ++ "/" ++ t, op, t] := by
  have hlen := ops_length hop
  have hn : numSubexp validPath = 2 := by decide
  have hr : List.range (1 + 2) = [0, 1, 2] := by decide
  rw [FindStringSubmatch, doExecute_validPath, path_data, run_validPath_valid op hop _ ht hal]
  simp only [List.head?_cons, Option.map_some', hn, hr, List.map_cons, List.map_nil]
  have h0 : substr ('/' :: (op.data ++ '/' :: t.data)) 0 (6 + t.data.length) =
      '/' :: (op.data ++ '/' :: t.data) := by
    rw [substr, List.drop_zero, List.take_of_length_le]
    simp only [List.length_cons, List.length_append, hlen]
    omega
  have h1 : substr ('/' :: (op.data ++ '/' :: t.data)) 1 5 = op.data :=
    substr_mid ['/'] op.data ('/' :: t.data) 1 5 rfl (by rw [hlen]; rfl)
  have h2 : substr ('/' :: (op.data ++ '/' :: t.data)) 6 (6 + t.data.length) = t.data := by
    have h3 : '/' :: (op.data ++ '/' :: t.data) = ('/' :: (op.data ++ ['/'])) ++ (t.data ++ []) := by
      simp
    rw [h3]
    refine substr_mid _ _ _ _ _ ?_ ?_ <;> simp [hlen]
  have h4 : String.mk ('/' :: (op.data ++ '/' :: t.data)) = "/" ++ op ++ "/" ++ t :=
    String.ext (path_data op t).symm
  have h0a : substr ('/' :: (op.data ++ '/' :: t.data)) 0 (6 + t.length) =
      '/' :: (op.data ++ '/' :: t.data) := h0
  have h2a : substr ('/' :: (op.data ++ '/' :: t.data)) 6 (6 + t.length) = t.data := h2
  simp [h0a, h1, h2a, h4, List.lookup]

theorem FindStringSubmatch_invalid (path : String)
    (h : ¬ ∃ op ∈ ops, ∃ t : String, t.data ≠ [] ∧ (∀ c ∈ t.data, isAlnum c = true) ∧
      path = "/" ++ op ++ "/" ++ t) :
    FindStringSubmatch validPath path = none := by
  rw [FindStringSubmatch, doExecute_validPath]
  cases hrun : run validPath ⟨0, path.data, []⟩ with
  | nil => rfl
  | cons u us =>
    exfalso
    have hu : u ∈ run validPath ⟨0, path.data, []⟩ := by rw [hrun]; simp
    obtain ⟨op, hop, w, hw, hal, hs⟩ := mem_run_validPath hu
    refine h ⟨op, hop, String.mk w, hw, hal, String.ext ?_⟩
    rw [path_data]
    exact hs

theorem not_valid_of_none {path : String} (h : FindStringSubmatch validPath path = none) :
    ¬ ∃ op ∈ ["edit", "save", "view"], ∃ t : String, t.data ≠ [] ∧
      (∀ c ∈ t.data, isAlnum c = true) ∧ path = "/" ++ op ++ "/" ++ t := by
  rintro ⟨op, hop, t, ht, hal, rfl⟩
  rw [FindStringSubmatch_valid op t hop ht hal] at h
  exact Option.noConfusion h

/-- C1: for every non-empty alphanumeric `t` and every `op` among `view`, `edit`,
`save`, the path `/op/t` is valid and the title extracted is `t`: `getTitle`
returns `(t, nil)` and writes nothing, and the function `makeHandler` returns
calls the wrapped handler with title `t`. -/
theorem validPath_extracts_title (w : World) (form : List (String × String)) (op t : String)
    (hop : op ∈ ["view", "edit", "save"]) (ht : t.data ≠ [])
    (hal : ∀ c ∈ t.data, isAlnum c = true) :
    FindStringSubmatch validPath ("/" ++ op ++ "/" ++ t) =
      some ["/" ++ op ++ "/" ++ t, op, t] ∧
    getTitle w ⟨"/" ++ op ++ "/" ++ t, form⟩ = (w, t, none) ∧
    ∀ fn : World → Request → String → World,
      makeHandler fn w ⟨"/" ++ op ++ "/" ++ t, form⟩ = fn w ⟨"/" ++ op ++ "/" ++ t, form⟩ t := by
  have hop1 : op ∈ ops := by
    simp only [List.mem_cons, List.mem_singleton, List.not_mem_nil, or_false] at hop
    rcases hop with rfl | rfl | rfl <;> decide
  have h := FindStringSubmatch_valid op t hop1 ht hal
  refine ⟨h, ?_, ?_⟩
  · simp [getTitle, h]
  · intro fn
    simp [makeHandler, h]

theorem validPath_extracts_title_witness :
    ("a1Z".data ≠ [] ∧ ∀ c ∈ "a1Z".data, isAlnum c = true) ∧
    getTitle emptyWorld ⟨"/" ++ "save" ++ "/" ++ "a1Z", []⟩ = (emptyWorld, "a1Z", none) :=
  ⟨⟨by decide, by decide⟩,
    (validPath_extracts_title emptyWorld [] "save" "a1Z" (by decide) (by decide) (by decide)).2.1⟩

/-- C2: for every request path that is not `/op/id` with `op` among `edit`, `save`,
`view` and `id` non-empty and alphanumeric, validation finds no match: `getTitle`
writes the not-found response and returns the empty title with an error, and the
function `makeHandler` returns writes the not-found response and does not call the
wrapped handler, so that the files are as before. -/
theorem invalid_path_not_found (w : World) (r : Request)
    (h : ¬ ∃ op ∈ ["edit", "save", "view"], ∃ t : String, t.data ≠ [] ∧
      (∀ c ∈ t.data, isAlnum c = true) ∧ r.Path = "/" ++ op ++ "/" ++ t) :
    FindStringSubmatch validPath r.Path = none ∧
    getTitle w r = (w.emit .notFound, "", some "Invalid Page Title") ∧
    ∀ fn : World → Request → String → World,
      makeHandler fn w r = w.emit .notFound ∧ (makeHandler fn w r).files = w.files ∧
        (makeHandler fn w r).log = w.log ++ [.notFound] := by
  have h1 := FindStringSubmatch_invalid r.Path h
  refine ⟨h1, by simp [getTitle, h1], ?_⟩
  intro fn
  have h2 : makeHandler fn w r = w.emit .notFound := by simp [makeHandler, h1]
  rw [h2]
  exact ⟨rfl, rfl, rfl⟩

theorem invalid_path_not_found_witness :
    FindStringSubmatch validPath "/foo/bar1" = none ∧
    FindStringSubmatch validPath "/view/bad!id" = none ∧
    FindStringSubmatch validPath "/view/" = none ∧
    FindStringSubmatch validPath "/view/a/b" = none ∧
    FindStringSubmatch validPath "/view/abc\n" = none ∧
    (makeHandler saveHandler emptyWorld ⟨"/save/a.b", [("body", "x")]⟩).log = [.notFound] :=
  ⟨(invalid_path_not_found emptyWorld ⟨"/foo/bar1", []⟩ (not_valid_of_none (by decide))).1,
    (invalid_path_not_found emptyWorld ⟨"/view/bad!id", []⟩ (not_valid_of_none (by decide))).1,
    (invalid_path_not_found emptyWorld ⟨"/view/", []⟩ (not_valid_of_none (by decide))).1,
    (invalid_path_not_found emptyWorld ⟨"/view/a/b", []⟩ (not_valid_of_none (by decide))).1,
    (invalid_path_not_found emptyWorld ⟨"/view/abc\n", []⟩ (not_valid_of_none (by decide))).1,
    ((invalid_path_not_found emptyWorld ⟨"/save/a.b", [("body", "x")]⟩
      (not_valid_of_none (by decide))).2.2 saveHandler).2.2⟩

/-! ## The page store -/

theorem lookup_write (files : List (String × String)) (name data : String) :
    ((name, data) :: files.filter fun f => f.1 != name).lookup name = some data := by
  simp [List.lookup]

theorem filter_write (files : List (String × String)) (name : String) :
    ((files.filter fun f => f.1 != name).filter fun f => f.1 == name) = [] := by
  induction files with
  | nil => rfl
  | cons f files ih =>
    by_cases hf : f.1 = name
    · simp [List.filter_cons, hf, ih]
    · simp [List.filter_cons, hf, ih]

theorem lookup_filter_ne (files : List (String × String)) {name n : String} (hn : n ≠ name) :
    (files.filter fun f => f.1 != name).lookup n = files.lookup n := by
  induction files with
  | nil => rfl
  | cons f files ih =>
    obtain ⟨k, v⟩ := f
    by_cases hk : k = name
    · subst hk
      have h1 : (n == k) = false := by simpa using hn
      simp [List.filter_cons, List.lookup_cons, h1, ih]
    · by_cases hnk : n = k
      · subst hnk
        simp [List.filter_cons, List.lookup_cons, hk]
      · have h1 : (n == k) = false := by simpa using hnk
        simp [List.filter_cons, List.lookup_cons, hk, h1, ih]

theorem save_ok (w : World) (p : Page)
    (he : w.writeErr ("data/" ++ p.Title ++ ".txt") = none) :
    p.save w =
      (⟨("data/" ++ p.Title ++ ".txt", p.Body) ::
          w.files.filter fun f => f.1 != "data/" ++ p.Title ++ ".txt",
        w.writeErr, w.templateErr,
        w.log ++ [.writeFile ("data/" ++ p.Title ++ ".txt") p.Body 0o600]⟩, none) := by
  simp [Page.save, WriteFile, World.emit, he]

theorem loadPage_some (w : World) (title body : String)
    (h : w.files.lookup ("data/" ++ title ++ ".txt") = some body) :
    loadPage w title = (w.emit (.readFile ("data/" ++ title ++ ".txt")), .ok ⟨title, body⟩) := by
  simp [loadPage, ReadFile, World.emit, h]

theorem loadPage_none (w : World) (title : String)
    (h : w.files.lookup ("data/" ++ title ++ ".txt") = none) :
    loadPage w title = (w.emit (.readFile ("data/" ++ title ++ ".txt")),
      .error ("open " ++ ("data/" ++ title ++ ".txt") ++ ": no such file or directory")) := by
  simp [loadPage, ReadFile, World.emit, h]

/-- C7: when `save` of a page succeeds, `loadPage` of its title on the resulting
store succeeds and returns the same title and the same body; the store then holds
exactly one file of that name, with the body as its content, and every other file
is as before. -/
theorem save_then_load (w : World) (p : Page) (h : (p.save w).2 = none) :
    (loadPage (p.save w).1 p.Title).2 = .ok p ∧
    ((p.save w).1.files.filter fun f => f.1 == "data/" ++ p.Title ++ ".txt") =
      [("data/" ++ p.Title ++ ".txt", p.Body)] ∧
    ∀ name, name ≠ "data/" ++ p.Title ++ ".txt" →
      (p.save w).1.files.lookup name = w.files.lookup name := by
  cases he : w.writeErr ("data/" ++ p.Title ++ ".txt") with
  | some e => simp [Page.save, WriteFile, World.emit, he] at h
  | none =>
    rw [save_ok w p he]
    refine ⟨?_, ?_, ?_⟩
    · rw [loadPage_some _ p.Title p.Body (lookup_write _ _ _)]
    · simp only [List.filter_cons, beq_self_eq_true, if_true, filter_write]
    · intro name hn
      have h1 : (name == "data/" ++ p.Title ++ ".txt") = false := by simpa using hn
      simp only [List.lookup_cons, h1, lookup_filter_ne _ hn]

theorem save_then_load_witness :
    (Page.save ⟨"T", "hello"⟩ ⟨[("data/T.txt", "<old> [x]")], fun _ => none, fun _ _ => none, []⟩).2
      = none ∧
    (loadPage (Page.save ⟨"T", "hello"⟩
      ⟨[("data/T.txt", "<old> [x]")], fun _ => none, fun _ _ => none, []⟩).1 "T").2
      = .ok ⟨"T", "hello"⟩ :=
  ⟨rfl, (save_then_load ⟨[("data/T.txt", "<old> [x]")], fun _ => none, fun _ _ => none, []⟩
    ⟨"T", "hello"⟩ rfl).1⟩

/-! ## The handlers -/

theorem view_path (T : String) : "/view/" ++ T = "/" ++ "view" ++ "/" ++ T :=
  String.ext (by simp [String.data_append])

theorem edit_path (T : String) : "/edit/" ++ T = "/" ++ "edit" ++ "/" ++ T :=
  String.ext (by simp [String.data_append])

theorem save_path (T : String) : "/save/" ++ T = "/" ++ "save" ++ "/" ++ T :=
  String.ext (by simp [String.data_append])

theorem makeHandler_valid (fn : World → Request → String → World) (w : World) (r : Request)
    (op t : String) (hop : op ∈ ops) (ht : t.data ≠ []) (hal : ∀ c ∈ t.data, isAlnum c = true)
    (hr : r.Path = "/" ++ op ++ "/" ++ t) : makeHandler fn w r = fn w r t := by
  simp [makeHandler, hr, FindStringSubmatch_valid op t hop ht hal]

theorem render_eq (w : World) (tmpl : String) (p : Page) :
    render w tmpl p =
      ⟨w.files, w.writeErr, w.templateErr,
        w.log ++ [.executeTemplate (tmpl ++ ".html") p] ++ renderErrors w tmpl p⟩ := by
  simp only [render, World.emit, renderErrors]
  cases w.templateErr (tmpl ++ ".html") p <;> simp

theorem viewHandler_missing (w : World) (r : Request) (t : String)
    (h : w.files.lookup ("data/" ++ t ++ ".txt") = none) :
    viewHandler w r t =
      ⟨w.files, w.writeErr, w.templateErr,
        w.log ++ [.readFile ("data/" ++ t ++ ".txt"), .redirect ("/edit/" ++ t) StatusFound]⟩ := by
  simp [viewHandler, loadPage_none w t h, World.emit]

theorem viewHandler_present (w : World) (r : Request) (t body : String)
    (h : w.files.lookup ("data/" ++ t ++ ".txt") = some body) :
    ∃ html, toHTML body = some html ∧
      viewHandler w r t =
        ⟨w.files, w.writeErr, w.templateErr,
          w.log ++ [.readFile ("data/" ++ t ++ ".txt"), .executeTemplate "view.html" ⟨t, html⟩]
            ++ renderErrors w "view" ⟨t, html⟩⟩ := by
  refine ⟨_, toHTML_eq body, ?_⟩
  simp only [viewHandler, loadPage_some w t body h, toHTML_eq body, render_eq, World.emit]
  simp [renderErrors]

theorem editHandler_missing (w : World) (r : Request) (t : String)
    (h : w.files.lookup ("data/" ++ t ++ ".txt") = none) :
    editHandler w r t =
      ⟨w.files, w.writeErr, w.templateErr,
        w.log ++ [.readFile ("data/" ++ t ++ ".txt"), .executeTemplate "edit.html" ⟨t, ""⟩]
          ++ renderErrors w "edit" ⟨t, ""⟩⟩ := by
  simp only [editHandler, loadPage_none w t h, render_eq, World.emit]
  simp [renderErrors]

theorem editHandler_present (w : World) (r : Request) (t body : String)
    (h : w.files.lookup ("data/" ++ t ++ ".txt") = some body) :
    editHandler w r t =
      ⟨w.files, w.writeErr, w.templateErr,
        w.log ++ [.readFile ("data/" ++ t ++ ".txt"), .executeTemplate "edit.html" ⟨t, body⟩]
          ++ renderErrors w "edit" ⟨t, body⟩⟩ := by
  simp only [editHandler, loadPage_some w t body h, render_eq, World.emit]
  simp [renderErrors]

theorem saveHandler_ok (w : World) (r : Request) (t : String)
    (h : w.writeErr ("data/" ++ t ++ ".txt") = none) :
    saveHandler w r t =
      ⟨("data/" ++ t ++ ".txt", r.FormValue "body") ::
          w.files.filter fun f => f.1 != "data/" ++ t ++ ".txt",
        w.writeErr, w.templateErr,
        w.log ++ [.writeFile ("data/" ++ t ++ ".txt") (r.FormValue "body") 0o600,
          .redirect ("/view/" ++ t) StatusFound]⟩ := by
  simp [saveHandler, save_ok w ⟨t, r.FormValue "body"⟩ h, World.emit]

theorem saveHandler_failed (w : World) (r : Request) (t err : String)
    (h : w.writeErr ("data/" ++ t ++ ".txt") = some err) :
    saveHandler w r t =
      ⟨w.files, w.writeErr, w.templateErr,
        w.log ++ [.writeFile ("data/" ++ t ++ ".txt") (r.FormValue "body") 0o600,
          .error err StatusInternalServerError]⟩ := by
  simp [saveHandler, Page.save, WriteFile, World.emit, h]

theorem lookup_none_of_load_fails (w : World) (T : String)
    (h : ∀ p, (loadPage w T).2 ≠ .ok p) : w.files.lookup ("data/" ++ T ++ ".txt") = none := by
  cases hl : w.files.lookup ("data/" ++ T ++ ".txt") with
  | none => rfl
  | some body =>
    exfalso
    refine h ⟨T, body⟩ ?_
    rw [loadPage_some w T body hl]

/-- C8: creation of a page, end to end.  From a world in which loading `T` fails
and writing its file succeeds (`T` non-empty and alphanumeric), four requests in
turn: `/view/T` reads the file and redirects to `/edit/T`, rendering nothing;
`/edit/T` renders `edit.html` with the page of title `T` and empty body; `/save/T`
with form value `body` equal to `b` writes `b` to the file of `T` and redirects to
`/view/T`; `/view/T` then renders `view.html` with the page of title `T` and body
`toHTML b`.  For `b = "hi"` that body is `hi`. -/
theorem create_page_end_to_end (w w1 w2 w3 w4 : World) (T b : String)
    (f1 f2 f3 f4 : List (String × String))
    (ht : T.data ≠ []) (hal : ∀ c ∈ T.data, isAlnum c = true)
    (hload : ∀ p, (loadPage w T).2 ≠ .ok p)
    (hwrite : w.writeErr ("data/" ++ T ++ ".txt") = none)
    (hbody : (⟨"/save/" ++ T, f3⟩ : Request).FormValue "body" = b)
    (h1 : w1 = makeHandler viewHandler w ⟨"/view/" ++ T, f1⟩)
    (h2 : w2 = makeHandler editHandler w1 ⟨"/edit/" ++ T, f2⟩)
    (h3 : w3 = makeHandler saveHandler w2 ⟨"/save/" ++ T, f3⟩)
    (h4 : w4 = makeHandler viewHandler w3 ⟨"/view/" ++ T, f4⟩) :
    w1.log = w.log ++
      [.readFile ("data/" ++ T ++ ".txt"), .redirect ("/edit/" ++ T) StatusFound] ∧
    w1.files = w.files ∧
    w2.log = w1.log ++
      [.readFile ("data/" ++ T ++ ".txt"), .executeTemplate "edit.html" ⟨T, ""⟩] ++
        renderErrors w "edit" ⟨T, ""⟩ ∧
    w2.files = w.files ∧
    w3.log = w2.log ++
      [.writeFile ("data/" ++ T ++ ".txt") b 0o600, .redirect ("/view/" ++ T) StatusFound] ∧
    w3.files.lookup ("data/" ++ T ++ ".txt") = some b ∧
    (∃ html, toHTML b = some html ∧
      w4.log = w3.log ++
        [.readFile ("data/" ++ T ++ ".txt"), .executeTemplate "view.html" ⟨T, html⟩] ++
          renderErrors w "view" ⟨T, html⟩) ∧
    toHTML "hi" = some "hi" := by
  have hnone := lookup_none_of_load_fails w T hload
  have e1 : w1 = ⟨w.files, w.writeErr, w.templateErr, w.log ++
      [.readFile ("data/" ++ T ++ ".txt"), .redirect ("/edit/" ++ T) StatusFound]⟩ := by
    rw [h1, makeHandler_valid viewHandler w _ "view" T (by decide) ht hal (view_path T),
      viewHandler_missing w _ T hnone]
  have e2 : w2 = ⟨w.files, w.writeErr, w.templateErr, w1.log ++
      [.readFile ("data/" ++ T ++ ".txt"), .executeTemplate "edit.html" ⟨T, ""⟩] ++
        renderErrors w "edit" ⟨T, ""⟩⟩ := by
    rw [h2, makeHandler_valid editHandler w1 _ "edit" T (by decide) ht hal (edit_path T),
      editHandler_missing w1 _ T (by rw [e1]; exact hnone), e1]
    rfl
  have e3 : w3 = ⟨("data/" ++ T ++ ".txt", b) ::
      w.files.filter fun f => f.1 != "data/" ++ T ++ ".txt", w.writeErr, w.templateErr,
      w2.log ++ [.writeFile ("data/" ++ T ++ ".txt") b 0o600,
        .redirect ("/view/" ++ T) StatusFound]⟩ := by
    rw [h3, makeHandler_valid saveHandler w2 _ "save" T (by decide) ht hal (save_path T),
      saveHandler_ok w2 _ T (by rw [e2]; exact hwrite), hbody, e2]
  have hl3 : w3.files.lookup ("data/" ++ T ++ ".txt") = some b := by
    rw [e3]; exact lookup_write _ _ _
  obtain ⟨html, hhtml, e4⟩ := viewHandler_present w3 ⟨"/view/" ++ T, f4⟩ T b hl3
  rw [← makeHandler_valid viewHandler w3 _ "view" T (by decide) ht hal (view_path T), ← h4]
    at e4
  refine ⟨by rw [e1], by rw [e1], by rw [e2], by rw [e2], by rw [e3], hl3,
    ⟨html, hhtml, ?_⟩, by decide⟩
  rw [e4]
  show _ = _ ++ _ ++ renderErrors w "view" ⟨T, html⟩
  rw [e3]
  rfl

theorem create_page_end_to_end_witness :
    (makeHandler viewHandler (makeHandler saveHandler (makeHandler editHandler
        (makeHandler viewHandler emptyWorld ⟨"/view/" ++ "NoSuchPage", []⟩)
        ⟨"/edit/" ++ "NoSuchPage", []⟩) ⟨"/save/" ++ "NoSuchPage", [("body", "hi")]⟩)
        ⟨"/view/" ++ "NoSuchPage", []⟩).log =
      [.readFile "data/NoSuchPage.txt", .redirect "/edit/NoSuchPage" 302,
        .readFile "data/NoSuchPage.txt", .executeTemplate "edit.html" ⟨"NoSuchPage", ""⟩,
        .writeFile "data/NoSuchPage.txt" "hi" 0o600, .redirect "/view/NoSuchPage" 302,
        .readFile "data/NoSuchPage.txt", .executeTemplate "view.html" ⟨"NoSuchPage", "hi"⟩] := by
  obtain ⟨h1, -, h2, -, h3, -, ⟨html, hhtml, h4⟩, -⟩ :=
    create_page_end_to_end emptyWorld _ _ _ _ "NoSuchPage" "hi" [] [] [("body", "hi")] []
      (by decide) (by decide) (fun p hp => Except.noConfusion hp) rfl rfl rfl rfl rfl rfl
  have h5 : html = "hi" := by
    have h6 : toHTML "hi" = some "hi" := by decide
    rw [h6] at hhtml
    exact (Option.some.inj hhtml).symm
  rw [h4, h3, h2, h1, h5]
  rfl

theorem renderErrors_agrees (w : World) (tmpl : String) (p : Page) (t : String) :
    ∀ e ∈ renderErrors w tmpl p, e.agrees t := by
  intro e he
  unfold renderErrors at he
  split at he
  · simp only [List.mem_singleton] at he
    subst he
    simp [Event.agrees]
  · simp at he

theorem handler_events (fn : World → Request → String → World)
    (hfn : fn = viewHandler ∨ fn = editHandler ∨ fn = saveHandler) (w : World) (r : Request)
    (t : String) : ∃ new, (fn w r t).log = w.log ++ new ∧ ∀ e ∈ new, e.agrees t := by
  rcases hfn with rfl | rfl | rfl
  · cases hl : w.files.lookup ("data/" ++ t ++ ".txt") with
    | none =>
      rw [viewHandler_missing w r t hl]
      refine ⟨_, rfl, ?_⟩
      intro e he
      simp only [List.mem_cons, List.mem_singleton, List.not_mem_nil, or_false] at he
      rcases he with rfl | rfl <;> simp [Event.agrees]
    | some body =>
      obtain ⟨html, -, hv⟩ := viewHandler_present w r t body hl
      rw [hv]
      refine ⟨_, List.append_assoc _ _ _, ?_⟩
      intro e he
      simp only [List.mem_append, List.mem_cons, List.mem_singleton,
        List.not_mem_nil, or_false] at he
      rcases he with (rfl | rfl) | he
      · simp [Event.agrees]
      · simp [Event.agrees]
      · exact renderErrors_agrees _ _ _ _ e he
  · cases hl : w.files.lookup ("data/" ++ t ++ ".txt") with
    | none =>
      rw [editHandler_missing w r t hl]
      refine ⟨_, List.append_assoc _ _ _, ?_⟩
      intro e he
      simp only [List.mem_append, List.mem_cons, List.mem_singleton,
        List.not_mem_nil, or_false] at he
      rcases he with (rfl | rfl) | he
      · simp [Event.agrees]
      · simp [Event.agrees]
      · exact renderErrors_agrees _ _ _ _ e he
    | some body =>
      rw [editHandler_present w r t body hl]
      refine ⟨_, List.append_assoc _ _ _, ?_⟩
      intro e he
      simp only [List.mem_append, List.mem_cons, List.mem_singleton,
        List.not_mem_nil, or_false] at he
      rcases he with (rfl | rfl) | he
      · simp [Event.agrees]
      · simp [Event.agrees]
      · exact renderErrors_agrees _ _ _ _ e he
  · cases hw : w.writeErr ("data/" ++ t ++ ".txt") with
    | none =>
      rw [saveHandler_ok w r t hw]
      refine ⟨_, rfl, ?_⟩
      intro e he
      simp only [List.mem_cons, List.mem_singleton, List.not_mem_nil, or_false] at he
      rcases he with rfl | rfl <;> simp [Event.agrees]
    | some err =>
      rw [saveHandler_failed w r t err hw]
      refine ⟨_, rfl, ?_⟩
      intro e he
      simp only [List.mem_cons, List.mem_singleton, List.not_mem_nil, or_false] at he
      rcases he with rfl | rfl <;> simp [Event.agrees]

/-- C9: title invariant of the dispatcher.  For every request and each of the
three handlers behind `makeHandler`, either the path is rejected and only the
not-found response is written, or the validator extracts a title `t`, non-empty
and alphanumeric (so without `/`, `\` and `.`), and every file read or written is
`data/t.txt` and every page rendered has title `t`. -/
theorem title_invariant (fn : World → Request → String → World)
    (hfn : fn = viewHandler ∨ fn = editHandler ∨ fn = saveHandler) (w : World) (r : Request) :
    ∃ new, (makeHandler fn w r).log = w.log ++ new ∧
      (new = [.notFound] ∨
        ∃ t : String, (FindStringSubmatch validPath r.Path).bind (fun m => m[2]?) = some t ∧
          t.data ≠ [] ∧ (∀ c ∈ t.data, isAlnum c = true) ∧
          '/' ∉ t.data ∧ '\\' ∉ t.data ∧ '.' ∉ t.data ∧ ∀ e ∈ new, e.agrees t) := by
  by_cases hv : ∃ op ∈ ops, ∃ t : String, t.data ≠ [] ∧ (∀ c ∈ t.data, isAlnum c = true) ∧
      r.Path = "/" ++ op ++ "/" ++ t
  · obtain ⟨op, hop, t, ht, hal, hr⟩ := hv
    obtain ⟨new, hlog, hnew⟩ := handler_events fn hfn w r t
    refine ⟨new, ?_, Or.inr ⟨t, ?_, ht, hal, ?_, ?_, ?_, hnew⟩⟩
    · rw [makeHandler_valid fn w r op t hop ht hal hr, hlog]
    · rw [hr, FindStringSubmatch_valid op t hop ht hal]
      rfl
    · exact fun hm => (isAlnum_ne (hal _ hm)).2.2.1 rfl
    · exact fun hm => (isAlnum_ne (hal _ hm)).2.2.2.1 rfl
    · exact fun hm => (isAlnum_ne (hal _ hm)).2.2.2.2.1 rfl
  · refine ⟨[.notFound], ?_, Or.inl rfl⟩
    simp [makeHandler, FindStringSubmatch_invalid r.Path hv, World.emit]

theorem title_invariant_witness :
    ∃ new, (makeHandler saveHandler emptyWorld ⟨"/save/Home", [("body", "x")]⟩).log =
        emptyWorld.log ++ new ∧
      (new = [.notFound] ∨
        ∃ t : String,
          (FindStringSubmatch validPath
            (⟨"/save/Home", [("body", "x")]⟩ : Request).Path).bind (fun m => m[2]?) = some t ∧
          t.data ≠ [] ∧ (∀ c ∈ t.data, isAlnum c = true) ∧
          '/' ∉ t.data ∧ '\\' ∉ t.data ∧ '.' ∉ t.data ∧ ∀ e ∈ new, e.agrees t) :=
  title_invariant saveHandler (Or.inr (Or.inr rfl)) emptyWorld ⟨"/save/Home", [("body", "x")]⟩

end Wiki
